import Mathlib

/-!
# Verification of the Seek job-listing scraper (`seek_scraper.py`)

This file gives a shallow embedding, in Lean 4, of the pure computational
core of `src/seek_scraper.py`:

* the recency-text normalizer `posted_text_to_hours`,
* the derived hour-truncated posted timestamp,
* the URL builder `build_seek_url` and the query-string override
  `set_query_param` (with `parse_qs` / `urlencode` / `quote_plus` /
  `unquote_plus` modelled at the character level, faithful for code points
  below 256; CPython additionally handles multi-byte UTF-8 escapes, which
  the scraper's URL family never produces),
* the pagination counter `max_page_from_dom`,
* the per-card harvesting loop `scrape_current_page` (recency filter,
  detail-link resolution, deduplication, detail-readiness handling),
* the headless/slow-mo resolution `resolve_headless` and the per-card
  politeness delay.

Browser-driver effects (navigation, selector queries, screenshots) are
modelled at their data boundary: a `Card` carries the values the Playwright
selectors would resolve, and detail-page readiness is a per-card boolean.
-/

namespace Seek

/-! ## Character and list helpers (Python `str` primitives, ASCII fragment) -/

/-- Python's `\s` / `str.strip()` whitespace, ASCII fragment:
space, tab, newline, carriage return, vertical tab, form feed. -/
def pyIsSpace (c : Char) : Bool :=
  c = ' ' || c = '\t' || c = '\n' || c = '\x0d' || c = '\x0b' || c = '\x0c'

/-- Does `pat` occur as a prefix of `s`? (building block for substring search) -/
def startsL : List Char → List Char → Bool
  | [], _ => true
  | _ :: _, [] => false
  | p :: ps, c :: cs => p = c && startsL ps cs

/-- Python's `pat in s` substring test. -/
def containsSub (pat : List Char) : List Char → Bool
  | [] => startsL pat []
  | c :: rest => startsL pat (c :: rest) || containsSub pat rest

/-- Value of a run of decimal digits, as read by Python's `int` / `float`. -/
def digitsVal (ds : List Char) : ℕ :=
  ds.foldl (fun a c => 10 * a + (c.toNat - 48)) 0

/-- Python `str.strip()`: drop leading and trailing whitespace. -/
def pyStripWs (l : List Char) : List Char :=
  ((l.dropWhile pyIsSpace).reverse.dropWhile pyIsSpace).reverse

/-- Python `str.strip('"')`: drop leading and trailing double quotes. -/
def pyStripQ (l : List Char) : List Char :=
  ((l.dropWhile (· = '"')).reverse.dropWhile (· = '"')).reverse

/-- The normalisation prefix of `posted_text_to_hours`:
`txt.strip().strip('"').lower()` (ASCII lower-casing). -/
def normTxt (s : String) : List Char :=
  (pyStripQ (pyStripWs s.toList)).map Char.toLower

/-- Drop the literal `pat` from the front of `s`, or fail. -/
def dropLit? : List Char → List Char → Option (List Char)
  | [], s => some s
  | _ :: _, [] => none
  | p :: ps, c :: cs => if c = p then dropLit? ps cs else none

/-! ## Hours-old values

`posted_text_to_hours` returns a Python float: a finite number of hours or
`float("inf")`.  We model this as a tagged finite/unbounded value with a
rational payload. -/

/-- An hours-old value: finite (rational, matching the float arithmetic on
the values the scraper produces) or the unbounded sentinel `float("inf")`. -/
inductive Hours where
  | fin : ℚ → Hours
  | inf : Hours
deriving DecidableEq, Repr

/-- The recency-filter comparison `hours_old > 24` (`inf > 24` is true). -/
def Hours.gt24 : Hours → Bool
  | .fin q => decide (24 < q)
  | .inf => true

/-! ## `posted_text_to_hours` (lines 58–89)

The two regex searches `(\d+)\s*(h|hour)` and `(\d+)\s*(d|day)` are modelled
by `matchNumUnit`: `re.search` scans start positions left to right; a match
at a position needs a digit run there, then (greedy) whitespace, then the
unit letter (the alternative `h`/`d` alone subsumes `hour`/`day`).
Backtracking inside the digit run or the whitespace cannot create a match
that the greedy reading misses, because a digit is not whitespace and the
unit letter is neither. -/

/-- `re.search(r"(\d+)\s*(u...)", t)` for a unit starting with letter `u`:
leftmost digit run followed by optional whitespace and `u`; returns the
value of the digit run (`group(1)`). -/
def matchNumUnit (u : Char) : List Char → Option ℕ
  | [] => none
  | c :: rest =>
    if c.isDigit then
      match (List.dropWhile Char.isDigit (c :: rest)).dropWhile pyIsSpace with
      | u' :: _ =>
        if u' = u then some (digitsVal (List.takeWhile Char.isDigit (c :: rest)))
        else matchNumUnit u rest
      | [] => matchNumUnit u rest
    else matchNumUnit u rest

/-- Match `posted\s+(\d+)\s+<unit>` at the current position only. -/
def postedAt? (unit : List Char) (s : List Char) : Option ℕ :=
  match dropLit? ['p', 'o', 's', 't', 'e', 'd'] s with
  | none => none
  | some t =>
    match t with
    | [] => none
    | c :: _ =>
      if pyIsSpace c then
        match t.dropWhile pyIsSpace with
        | [] => none
        | d :: _ =>
          if d.isDigit then
            match (t.dropWhile pyIsSpace).dropWhile Char.isDigit with
            | [] => none
            | w :: _ =>
              if pyIsSpace w then
                match dropLit? unit (((t.dropWhile pyIsSpace).dropWhile Char.isDigit).dropWhile pyIsSpace) with
                | some _ => some (digitsVal (List.takeWhile Char.isDigit (t.dropWhile pyIsSpace)))
                | none => none
              else none
          else none
      else none

/-- `re.search(r"posted\s+(\d+)\s+<unit>", t)`: scan for the leftmost match. -/
def matchPosted (unit : List Char) : List Char → Option ℕ
  | [] => none
  | c :: rest =>
    match postedAt? unit (c :: rest) with
    | some n => some n
    | none => matchPosted unit rest

/-- `posted_text_to_hours` (lines 58–89).  The argument is an `Option` so
that Python's falsy check `if not txt` covers both `None` and `""`. -/
def posted_text_to_hours (txt : Option String) : Hours :=
  match txt with
  | none => Hours.inf
  | some s =>
    if s = "" then Hours.inf
    else
      let t := normTxt s
      if containsSub "just".toList t || containsSub "today".toList t then Hours.fin 0
      else
        match matchNumUnit 'h' t with
        | some n => Hours.fin n
        | none =>
          match matchNumUnit 'd' t with
          | some n => Hours.fin ((n * 24 : ℕ) : ℚ)
          | none =>
            match matchPosted "hour".toList t with
            | some n => Hours.fin n
            | none =>
              match matchPosted "day".toList t with
              | some n => Hours.fin ((n * 24 : ℕ) : ℚ)
              | none =>
                if containsSub "30+".toList t || containsSub "month".toList t
                    || containsSub "week".toList t then Hours.inf
                else Hours.inf

/-! ## Derived posted timestamp (lines 340–342)

`posted_dt_local = (now_local - timedelta(hours=hours_old)).replace(minute=0,
second=0, microsecond=0)`.  A local wall-clock instant is modelled as a
count of microseconds (the resolution of `datetime`/`timedelta`) since an
arbitrary hour-aligned local epoch; `datetime - timedelta` keeps the fixed
local offset that `datetime.now().astimezone()` attached, so it is plain
integer subtraction on that count, and `replace(minute=0, second=0,
microsecond=0)` zeroes the sub-hour part of the count. -/

/-- Microseconds in one hour. -/
def microsPerHour : ℤ := 3600000000

/-- `datetime.replace(minute=0, second=0, microsecond=0)`: truncate a
wall-clock instant down to the start of its hour. -/
def hourTrunc (t : ℤ) : ℤ := t - t % 3600000000

/-- The derived posted timestamp: capture instant `now` minus a duration of
`d` microseconds, truncated to the start of the hour (lines 340–341). -/
def posted_dt_local (now d : ℤ) : ℤ := hourTrunc (now - d)

/-- `timedelta(hours=h)` as microseconds, for a rational `h` (exact whenever
`h` has microsecond resolution, as every value in this program does). -/
def hoursToMicros (q : ℚ) : ℤ := q.num * 3600000000 / (q.den : ℤ)

/-- The wall-clock minute component of an instant. -/
def minuteOf (t : ℤ) : ℤ := t % 3600000000 / 60000000

/-- The wall-clock second component of an instant. -/
def secondOf (t : ℤ) : ℤ := t % 60000000 / 1000000

/-- The wall-clock microsecond component of an instant. -/
def microOf (t : ℤ) : ℤ := t % 1000000

/-- The hour an instant falls in (count of whole hours since the epoch). -/
def hourIndexOf (t : ℤ) : ℤ := t / 3600000000

/-! ## `build_seek_url` (lines 34–45) -/

/-- `re.sub(r"\s+", "-", ·)`: replace each maximal whitespace run by a
single `-`. -/
def pySubWsDash : List Char → List Char
  | [] => []
  | c :: rest =>
    if pyIsSpace c then '-' :: pySubWsDash (rest.dropWhile pyIsSpace)
    else c :: pySubWsDash rest
termination_by l => l.length
decreasing_by
  · exact Nat.lt_succ_of_le (List.Sublist.length_le (List.dropWhile_sublist _))
  · simp

/-- The keyword slug `re.sub(r"\s+", "-", keyword.strip()).lower()`
(line 42). -/
def slugList (keyword : String) : List Char :=
  (pySubWsDash (pyStripWs keyword.toList)).map Char.toLower

/-- `build_seek_url` (lines 34–45): base URL, slugified-keyword path and the
salary-range / date-range / sort-mode query, as one string. -/
def build_seek_url (keyword : String) (min_salary : ℕ) (listing_date : ℕ) : String :=
  "https://www.seek.com.au" ++ "/"
    ++ ⟨slugList keyword⟩ ++ "-jobs/in-All-Australia"
    ++ "?salaryrange=" ++ toString min_salary ++ "-999999&daterange="
    ++ toString listing_date ++ "&sortmode=ListedDate"

/-- The words of a string: maximal whitespace-free runs, in order. -/
def wordsOf : List Char → List (List Char)
  | [] => []
  | c :: rest =>
    if pyIsSpace c then wordsOf rest
    else (c :: rest.takeWhile (fun x => !pyIsSpace x))
      :: wordsOf (rest.dropWhile (fun x => !pyIsSpace x))
termination_by l => l.length
decreasing_by
  · simp
  · exact Nat.lt_succ_of_le (List.Sublist.length_le (List.dropWhile_sublist _))

/-- Join word lists with single hyphens. -/
def dashJoin : List (List Char) → List Char
  | [] => []
  | [w] => w
  | w :: ws => w ++ '-' :: dashJoin ws

/-- The spec's description of the slug, stated in its own words: trim the
keyword, split it into whitespace-separated words, join them with single
hyphens, lower-case the result.  Compared against `slugList` (the
`re.sub`-based code slug) in the `C8` theorem. -/
def slugSpec (keyword : String) : List Char :=
  (dashJoin (wordsOf (pyStripWs keyword.toList))).map Char.toLower

/-- No leading whitespace: the head, if any, is not whitespace. -/
def noLeadWs (l : List Char) : Prop := ∀ c, l.head? = some c → pyIsSpace c = false

/-- No trailing whitespace: the last character, if any, is not whitespace. -/
def noTrailWs (l : List Char) : Prop := ∀ c, l.getLast? = some c → pyIsSpace c = false

/-! ## `set_query_param` (lines 47–52)

`urlparse`/`urlunparse` split and reassemble a URL into six components;
`set_query_param` rebuilds only the query component, so we model URLs at
the component level.  `parse_qs` (with its default
`keep_blank_values=False`), `urlencode(..., doseq=True)`, `quote_plus` and
`unquote_plus` are modelled character by character, faithful for code
points below 256 (CPython additionally splits code points ≥ 256 into
multi-byte UTF-8 escapes; every URL this program builds is ASCII). -/

/-- CPython's always-safe quoting set: ASCII letters, digits, `_.-~`. -/
def alwaysSafeChar (c : Char) : Bool :=
  c.isAlphanum || c = '_' || c = '.' || c = '-' || c = '~'

/-- Upper-case hex digit of a nibble. -/
def hexUpper (n : ℕ) : Char :=
  if n < 10 then Char.ofNat (48 + n) else Char.ofNat (55 + n)

/-- Value of a hex digit character (`0`-`9`, `A`-`F`, `a`-`f`), if it is
one. -/
def hexVal? (c : Char) : Option ℕ :=
  if 48 ≤ c.toNat && c.toNat ≤ 57 then some (c.toNat - 48)
  else if 65 ≤ c.toNat && c.toNat ≤ 70 then some (c.toNat - 55)
  else if 97 ≤ c.toNat && c.toNat ≤ 102 then some (c.toNat - 87)
  else none

/-- `urllib.parse.quote_plus` with empty `safe` (as `urlencode` uses it):
safe characters kept, space to `+`, anything else to `%XX`. -/
def quotePlus : List Char → List Char
  | [] => []
  | c :: rest =>
    (if alwaysSafeChar c then [c]
     else if c = ' ' then ['+']
     else ['%', hexUpper (c.toNat / 16), hexUpper (c.toNat % 16)]) ++ quotePlus rest

/-- `urllib.parse.unquote_plus`: `+` to space, valid `%XX` decoded, an
invalid escape kept literally. -/
def unquotePlus : List Char → List Char
  | [] => []
  | '+' :: rest => ' ' :: unquotePlus rest
  | '%' :: a :: b :: rest2 =>
    match hexVal? a, hexVal? b with
    | some x, some y => Char.ofNat (16 * x + y) :: unquotePlus rest2
    | _, _ => '%' :: unquotePlus (a :: b :: rest2)
  | c :: rest => c :: unquotePlus rest

/-- Python `qs.split('&')`. -/
def splitAmp : List Char → List (List Char)
  | [] => [[]]
  | c :: rest =>
    if c = '&' then [] :: splitAmp rest
    else
      match splitAmp rest with
      | s :: ss => (c :: s) :: ss
      | [] => [[c]]

/-- Python `name_value.split('=', 1)`: split at the first `=`, if any. -/
def splitEq? : List Char → Option (List Char × List Char)
  | [] => none
  | c :: rest =>
    if c = '=' then some ([], rest)
    else
      match splitEq? rest with
      | some kv => some (c :: kv.1, kv.2)
      | none => none

/-- One `name=value` field of `parse_qsl` with `keep_blank_values=False`:
fields without `=` and fields with an empty value are dropped; name and
value are unquoted. -/
def parseSeg (seg : List Char) : Option (List Char × List Char) :=
  match splitEq? seg with
  | none => none
  | some kv => if kv.2 = [] then none else some (unquotePlus kv.1, unquotePlus kv.2)

/-- `urllib.parse.parse_qsl(qs)` with default arguments. -/
def parse_qsl (qs : List Char) : List (List Char × List Char) :=
  (splitAmp qs).filterMap parseSeg

/-- One step of `parse_qs`'s dict building: append `v` to the entry of `k`,
or add a new entry at the end (dicts preserve insertion order). -/
def addPair : List (List Char × List (List Char)) → List Char → List Char →
    List (List Char × List (List Char))
  | [], k, v => [(k, [v])]
  | e :: rest, k, v =>
    if e.1 = k then (e.1, e.2 ++ [v]) :: rest else e :: addPair rest k v

/-- `urllib.parse.parse_qs(qs)`: group the pairs of `parse_qsl` by key. -/
def parse_qs (qs : List Char) : List (List Char × List (List Char)) :=
  (parse_qsl qs).foldl (fun acc kv => addPair acc kv.1 kv.2) []

/-- Python dict assignment `q[key] = vs`: replace in place or append. -/
def dictSet : List (List Char × List (List Char)) → List Char → List (List Char) →
    List (List Char × List (List Char))
  | [], k, vs => [(k, vs)]
  | e :: rest, k, vs =>
    if e.1 = k then (k, vs) :: rest else e :: dictSet rest k vs

/-- One `key=value` field as `urlencode` writes it. -/
def encodePair (k v : List Char) : List Char := quotePlus k ++ '=' :: quotePlus v

/-- Join fields with `&`. -/
def joinAmp : List (List Char) → List Char
  | [] => []
  | [s] => s
  | s :: ss => s ++ '&' :: joinAmp ss

/-- `urllib.parse.urlencode(q, doseq=True)` over the grouped dict. -/
def urlencodeSeq (q : List (List Char × List (List Char))) : List Char :=
  joinAmp ((q.map (fun e => e.2.map (encodePair e.1))).flatten)

/-- The six components of `urlparse` / `urlunparse`. -/
structure URLParts where
  scheme : String
  netloc : String
  path : String
  params : String
  query : String
  fragment : String
deriving DecidableEq, Repr

/-- `set_query_param` (lines 47–52): re-parse the query, overwrite one key
with a single value, re-encode; every other component is passed through to
`urlunparse` untouched. -/
def set_query_param (u : URLParts) (key value : String) : URLParts :=
  { u with
    query := ⟨urlencodeSeq (dictSet (parse_qs u.query.toList) key.toList [value.toList])⟩ }

/-- `build_seek_url`'s output, as `urlparse` decomposes it (the keyword
slug is slug-safe per the spec's `SearchQuery` invariant, so the path holds
no `?`, `#` or `;`). -/
def buildSeekParts (keyword : String) (min_salary : ℕ) (listing_date : ℕ) : URLParts :=
  { scheme := "https"
    netloc := "www.seek.com.au"
    path := "/" ++ ⟨slugList keyword⟩ ++ "-jobs/in-All-Australia"
    params := ""
    query := "salaryrange=" ++ toString min_salary ++ "-999999&daterange="
      ++ toString listing_date ++ "&sortmode=ListedDate"
    fragment := "" }

/-- The family of URLs the Query Builder produces: `build_seek_url` outputs
closed under `set_query_param` (which is how page 2..N URLs are made). -/
inductive SeekFamily : URLParts → Prop where
  | base (keyword : String) (min_salary listing_date : ℕ) :
      SeekFamily (buildSeekParts keyword min_salary listing_date)
  | step (u : URLParts) (key value : String) :
      SeekFamily u → SeekFamily (set_query_param u key value)

/-- The values of query parameter `k` of a URL, as `parse_qs` reports them
(`parse_qs(u.query)[k]`, empty list when absent). -/
def qvals (u : URLParts) (k : List Char) : List (List Char) :=
  ((parse_qsl u.query.toList).filter (fun p => decide (p.1 = k))).map (·.2)

/-- The values stored under key `k` across the entries of a grouped dict,
in order (used to relate `parse_qs`' grouping back to `parse_qsl`). -/
def groupedVals (Q : List (List Char × List (List Char))) (k : List Char) :
    List (List Char) :=
  ((Q.filter (fun e => decide (e.1 = k))).map (fun e => e.2)).flatten

/-- All code points of a string below 256 (the fragment on which the
character-level model of CPython's quoting is exact). -/
def bytesOk (s : String) : Bool := s.toList.all (fun c => c.toNat < 256)

/-! ## `max_page_from_dom` (lines 206–232)

A pagination-control node is modelled by the three strings the code reads
from it: `get_attribute("data-automation") or ""`,
`get_attribute("aria-label") or ""` and `inner_text() or ""`. -/

/-- A word character of the regex `\b` boundary (`\w`, ASCII fragment). -/
def isWordChar (c : Char) : Bool := c.isAlphanum || c = '_'

/-- Drop a literal pattern case-insensitively (pattern given lower-case). -/
def dropLitCI? : List Char → List Char → Option (List Char)
  | [], s => some s
  | _ :: _, [] => none
  | p :: ps, c :: cs => if c.toLower = p then dropLitCI? ps cs else none

/-- Match `\bpage[-\s]?(\d+)\b` (with `re.I`) at the current position;
`prev` is the character before the position (for the left `\b`). -/
def pageAt? (prev : Option Char) (s : List Char) : Option ℕ :=
  if (match prev with | none => true | some c => !isWordChar c) then
    match dropLitCI? "page".toList s with
    | none => none
    | some t =>
      let t1 := match t with
        | c :: rest => if c = '-' || pyIsSpace c then rest else t
        | [] => t
      match t1.takeWhile Char.isDigit with
      | [] => none
      | ds =>
        match t1.dropWhile Char.isDigit with
        | [] => some (digitsVal ds)
        | c :: _ => if isWordChar c then none else some (digitsVal ds)
  else none

/-- `re.search(r"\bpage[-\s]?(\d+)\b", s, re.I)`: scan for the leftmost
match, tracking the previous character for the boundary. -/
def pageSearchAux : Option Char → List Char → Option ℕ
  | prev, [] => pageAt? prev []
  | prev, c :: rest =>
    match pageAt? prev (c :: rest) with
    | some n => some n
    | none => pageSearchAux (some c) rest

/-- Python `s.isdigit()` (ASCII fragment): non-empty, all digits. -/
def pyIsDigitStr (s : List Char) : Bool := !s.isEmpty && s.all Char.isDigit

/-- Number extracted from one label string: the `page-N` regex first, the
all-digits fallback second (lines 222–229). -/
def labelNum (s : String) : Option ℕ :=
  match pageSearchAux none s.toList with
  | some n => some n
  | none => if pyIsDigitStr s.toList then some (digitsVal s.toList) else none

/-- A matched pagination-control node's readable strings. -/
structure PageNode where
  dataAutomation : String
  ariaLabel : String
  innerText : String
deriving DecidableEq, Repr

/-- Per node: first number found among data-automation, aria-label, and
stripped inner text, in that order (lines 216–229). -/
def nodeNum (nd : PageNode) : Option ℕ :=
  [nd.dataAutomation, nd.ariaLabel, (⟨pyStripWs nd.innerText.toList⟩ : String)].findSome? labelNum

/-- `max_page_from_dom` (lines 206–232): `max(nums) if nums else 1`. -/
def max_page_from_dom (nodes : List PageNode) : ℕ :=
  match (nodes.filterMap nodeNum).max? with
  | some m => m
  | none => 1

/-! ## The Listing Harvester: `scrape_current_page` (lines 293–449)

A `Card` carries the values the Playwright selectors resolve on one listing
card: the title/company/posted-label strings (the posted label already
including the `::before` computed-style fallback of lines 328–334), the
candidate detail hrefs in the selector order of lines 346–351, whether the
detail page becomes ready (`DETAIL_READY_SEL` within retries, line 377) or
at least reaches the generic `main, article` fallback (line 387), and the
detail-page field texts. -/

/-- One listing card, at the driver boundary. -/
structure Card where
  title : String
  company : String
  posted_text : String
  links : List String
  detail_ready : Bool
  detail_fallback_ready : Bool
  location : String
  category : String
  work_type : String
  salary : String
  ad_text : String
deriving DecidableEq, Repr

/-- Match `/job/(\d+)` at the current position. -/
def jobIdAt? (s : List Char) : Option (List Char) :=
  match dropLit? "/job/".toList s with
  | none => none
  | some t =>
    match t.takeWhile Char.isDigit with
    | [] => none
    | ds => some ds

/-- `re.search(r"/job/(\d+)", url)`: leftmost match's digit group. -/
def jobIdSearch : List Char → Option (List Char)
  | [] => none
  | c :: rest =>
    match jobIdAt? (c :: rest) with
    | some ds => some ds
    | none => jobIdSearch rest

/-- `extract_job_id_from_url` (lines 54–56). -/
def extract_job_id_from_url (url : String) : Option String :=
  (jobIdSearch url.toList).map (fun ds => (⟨ds⟩ : String))

/-- `urljoin("https://www.seek.com.au", href)` (line 362), modelled for the
href shapes a card link takes: absolute, scheme-relative, root-relative,
bare relative against the empty base path. -/
def urljoin_seek (href : String) : String :=
  if startsL "https://".toList href.toList || startsL "http://".toList href.toList then href
  else if startsL "//".toList href.toList then "https:" ++ href
  else if startsL "/".toList href.toList then "https://www.seek.com.au" ++ href
  else "https://www.seek.com.au/" ++ href

/-- Lines 345–357: first selector candidate whose href contains `/job/`. -/
def firstJobLink (links : List String) : Option String :=
  links.find? (fun h => containsSub "/job/".toList h.toList)

/-- One output row (lines 411–424).  `hours_old` is stored as the exact
rational; `round(hours_old, 2)` is the identity on every value the
normalizer produces (whole hours). -/
structure JobRecord where
  job_id : Option String
  title : String
  company : String
  detail_url : String
  posted_label : String
  hours_old : ℚ
  posted_dt : ℤ
  location : String
  category : String
  work_type : String
  salary : String
  ad_text : String
deriving DecidableEq, Repr

/-- The run's accumulating state: `all_results`, `seen_links`, plus the log
of detail-page navigations (`context.new_page(); detail_page.goto(...)`,
lines 370–373) used to state "no detail fetch". -/
structure HarvestState where
  all_results : List JobRecord
  seen_links : List String
  detail_visits : List String
deriving DecidableEq, Repr

/-- The state at the start of a run (lines 290–291). -/
def initState : HarvestState := ⟨[], [], []⟩

/-- How the loop body disposed of one card. -/
inductive CardOutcome where
  | recencySkipped
  | noLink
  | duplicate
  | readyFailed
  | recorded
deriving DecidableEq, Repr

/-- Assemble the record appended at lines 411–424. -/
def mkRecord (now : ℤ) (c : Card) (q : ℚ) (durl : String) : JobRecord :=
  { job_id := extract_job_id_from_url durl
    title := c.title
    company := c.company
    detail_url := durl
    posted_label := c.posted_text
    hours_old := q
    posted_dt := posted_dt_local now (hoursToMicros q)
    location := c.location
    category := c.category
    work_type := c.work_type
    salary := c.salary
    ad_text := c.ad_text }

/-- The body of the card loop (lines 303–430) on one card: recency filter
(`if hours_old > 24: continue`, line 337; `inf > 24` holds, so the two
`Hours` cases both skip), detail-link resolution, deduplication against
`seen_links` (lines 363–365), detail navigation and readiness, record
assembly.  Returns the new state and what happened. -/
def processCard (now : ℤ) (st : HarvestState) (c : Card) : HarvestState × CardOutcome :=
  match posted_text_to_hours (some c.posted_text) with
  | Hours.inf => (st, CardOutcome.recencySkipped)
  | Hours.fin q =>
    if 24 < q then (st, CardOutcome.recencySkipped)
    else
      match firstJobLink c.links with
      | none => (st, CardOutcome.noLink)
      | some href =>
        let durl := urljoin_seek href
        if durl ∈ st.seen_links then (st, CardOutcome.duplicate)
        else
          if c.detail_ready || c.detail_fallback_ready then
            ({ all_results := st.all_results ++ [mkRecord now c q durl]
               seen_links := st.seen_links ++ [durl]
               detail_visits := st.detail_visits ++ [durl] }, CardOutcome.recorded)
          else
            ({ st with
                seen_links := st.seen_links ++ [durl]
                detail_visits := st.detail_visits ++ [durl] }, CardOutcome.readyFailed)

/-- `scrape_current_page` over the cards of one ready list page.  On a
detail-readiness failure the source executes `return` (line 390), ending
the whole page's card loop — not `continue` — so the remaining cards of the
page are dropped. -/
def scrapePage (now : ℤ) (st : HarvestState) : List Card → HarvestState
  | [] => st
  | c :: rest =>
    let r := processCard now st c
    if r.2 = CardOutcome.readyFailed then r.1 else scrapePage now r.1 rest

/-- The page loop of `scrape_jobs` (lines 432–449): harvest the first page,
then each later page, threading `all_results` / `seen_links` through. -/
def scrape_run (now : ℤ) (pages : List (List Card)) : HarvestState :=
  pages.foldl (fun st cards => scrapePage now st cards) initState

/-! ## `resolve_headless` (lines 464–490) and the per-card delay (line 309) -/

/-- `resolve_headless`: `headless_env` is the parsed `HEADLESS` variable
when set and non-blank, `headless_param` the function argument, `ci` the
parsed `CI` flag, `has_display` whether `DISPLAY` is set and non-blank,
`slow_mo_env` the float value of `SLOW_MO` (default 0).  Returns the
headless flag and the effective `slow_mo`, forced to zero when headless or
in CI (lines 488–489). -/
def resolve_headless (headless_env : Option Bool) (headless_param : Option Bool)
    (ci : Bool) (has_display : Bool) (slow_mo_env : ℚ) : Bool × ℚ :=
  let headless :=
    match headless_env with
    | some b => b
    | none =>
      match headless_param with
      | some b => b
      | none =>
        if ci && !has_display then true
        else if has_display then false
        else true
  (headless, if headless || ci then 0 else slow_mo_env)

/-- Line 309's per-card politeness delay in seconds:
`time.sleep(0.05 if slow_mo == 0 else 0.0)`. -/
def card_delay (slow_mo : ℚ) : ℚ := if slow_mo = 0 then 1 / 20 else 0

/-! ## Concrete inputs used in the theorems below -/

/-- The deduplication invariant: recorded detail URLs are pairwise distinct
and each is tracked in `seen_links`. -/
def UrlsInv (st : HarvestState) : Prop :=
  (st.all_results.map (fun r => r.detail_url)).Nodup ∧
  ∀ r ∈ st.all_results, r.detail_url ∈ st.seen_links

/-- A card whose label parses to exactly 24 hours (`"1d ago"`). -/
def cardBoundary : Card :=
  ⟨"t", "c", "1d ago", ["/job/10"], true, false, "", "", "", "", ""⟩

/-- A card older than the threshold (`"2d ago"`, 48 hours). -/
def cardOld : Card :=
  ⟨"t", "c", "2d ago", ["/job/11"], true, false, "", "", "", "", ""⟩

/-- A fresh card whose detail page never becomes ready (neither the detail
selectors nor the generic `main, article` fallback attach). -/
def cardDetailFail : Card :=
  ⟨"t1", "c1", "2h ago", ["/job/1"], false, false, "", "", "", "", ""⟩

/-- A fresh, fully working card. -/
def cardGood : Card :=
  ⟨"t2", "c2", "3h ago", ["/job/2"], true, false, "", "", "", "", ""⟩

/-- Another fresh, fully working card, with a distinct detail URL. -/
def cardGood2 : Card :=
  ⟨"t3", "c3", "4h ago", ["/job/3"], true, false, "", "", "", "", ""⟩

/-- A state that has already seen `https://www.seek.com.au/job/1`. -/
def stSeen : HarvestState := ⟨[], ["https://www.seek.com.au/job/1"], []⟩

/-- A fresh card whose detail URL `stSeen` has already seen. -/
def cardDup : Card :=
  ⟨"t", "c", "2h ago", ["/job/1"], true, false, "", "", "", "", ""⟩

/-- Three pagination-control nodes carrying numbers 3, 12 and 7. -/
def demoNodes : List PageNode :=
  [⟨"page-3", "", ""⟩, ⟨"", "Go to page 12", ""⟩, ⟨"", "", " 7 "⟩]

/-! # Theorems -/

/-! ## Shared helper lemmas -/

theorem hourTrunc_eq_mul (t : ℤ) : hourTrunc t = 3600000000 * (t / 3600000000) := by
  have h := Int.ediv_add_emod t 3600000000
  unfold hourTrunc
  omega

theorem hourTrunc_fields (t : ℤ) :
    minuteOf (hourTrunc t) = 0 ∧ secondOf (hourTrunc t) = 0 ∧ microOf (hourTrunc t) = 0
      ∧ hourIndexOf (hourTrunc t) = hourIndexOf t
      ∧ hourTrunc t ≤ t ∧ t - hourTrunc t < 3600000000 := by
  have htr := hourTrunc_eq_mul t
  have hne : (3600000000 : ℤ) ≠ 0 := by norm_num
  refine ⟨?_, ?_, ?_, ?_, ?_, ?_⟩
  · unfold minuteOf
    rw [htr, Int.mul_emod_right]
    rfl
  · unfold secondOf
    rw [htr]
    have h2 : (3600000000 : ℤ) * (t / 3600000000) = 60000000 * (60 * (t / 3600000000)) := by ring
    rw [h2, Int.mul_emod_right]
    rfl
  · unfold microOf
    rw [htr]
    have h3 : (3600000000 : ℤ) * (t / 3600000000) = 1000000 * (3600 * (t / 3600000000)) := by ring
    rw [h3, Int.mul_emod_right]
  · unfold hourIndexOf
    rw [htr, Int.mul_ediv_cancel_left _ hne]
  · have := Int.emod_nonneg t hne
    unfold hourTrunc
    omega
  · have := Int.emod_lt_of_pos t (show (0:ℤ) < 3600000000 by norm_num)
    unfold hourTrunc
    omega

/-! ## C4 -/

/-- C4: for every capture instant `now` and every finite hours-old value
`q ≥ 0` (including fractional values such as 2.5, carried into microseconds
by `hoursToMicros` exactly as `timedelta(hours=q)` is), the derived posted
timestamp equals `now` minus the duration with the wall-clock minute,
second and sub-second components zeroed — the instant truncated down to the
start of its hour: it keeps the hour of `now - d` and sits at most one hour
before it. -/
theorem c4_derived_timestamp (now : ℤ) (q : ℚ) (_hq : 0 ≤ q) :
    minuteOf (posted_dt_local now (hoursToMicros q)) = 0
  ∧ secondOf (posted_dt_local now (hoursToMicros q)) = 0
  ∧ microOf (posted_dt_local now (hoursToMicros q)) = 0
  ∧ hourIndexOf (posted_dt_local now (hoursToMicros q)) = hourIndexOf (now - hoursToMicros q)
  ∧ posted_dt_local now (hoursToMicros q) ≤ now - hoursToMicros q
  ∧ now - hoursToMicros q - posted_dt_local now (hoursToMicros q) < 3600000000 := by
  unfold posted_dt_local
  exact hourTrunc_fields (now - hoursToMicros q)

/-- Witness for C4 at `now` a concrete instant and `q = 5/2` (2.5 hours,
i.e. 9000000000 microseconds). -/
theorem c4_derived_timestamp_witness :
    minuteOf (posted_dt_local 1700000000000000 (hoursToMicros (5 / 2))) = 0
  ∧ secondOf (posted_dt_local 1700000000000000 (hoursToMicros (5 / 2))) = 0
  ∧ microOf (posted_dt_local 1700000000000000 (hoursToMicros (5 / 2))) = 0
  ∧ hourIndexOf (posted_dt_local 1700000000000000 (hoursToMicros (5 / 2)))
      = hourIndexOf (1700000000000000 - hoursToMicros (5 / 2))
  ∧ posted_dt_local 1700000000000000 (hoursToMicros (5 / 2))
      ≤ 1700000000000000 - hoursToMicros (5 / 2)
  ∧ 1700000000000000 - hoursToMicros (5 / 2)
      - posted_dt_local 1700000000000000 (hoursToMicros (5 / 2)) < 3600000000 :=
  c4_derived_timestamp 1700000000000000 (5 / 2) (by norm_num)

/-! ## C10 -/

/-- C10: the recency-text normalizer is total — every input, `None` and the
empty string included, yields a value, and that value is either the
unbounded sentinel or a finite, non-negative number of hours. -/
theorem c10_normalizer_total_nonneg (txt : Option String) :
    posted_text_to_hours txt = Hours.inf ∨
      ∃ q : ℚ, posted_text_to_hours txt = Hours.fin q ∧ 0 ≤ q := by
  rcases txt with _ | s
  · exact Or.inl rfl
  · by_cases hs : s = ""
    · exact Or.inl (by simp [posted_text_to_hours, hs])
    · simp only [posted_text_to_hours, hs, if_false]
      split
      · exact Or.inr ⟨0, rfl, le_refl 0⟩
      · split
        · exact Or.inr ⟨_, rfl, Nat.cast_nonneg _⟩
        · split
          · exact Or.inr ⟨_, rfl, Nat.cast_nonneg _⟩
          · split
            · exact Or.inr ⟨_, rfl, Nat.cast_nonneg _⟩
            · split
              · exact Or.inr ⟨_, rfl, Nat.cast_nonneg _⟩
              · split
                · exact Or.inl rfl
                · exact Or.inl rfl

/-! ## C2 -/

/-- C2: the normalizer's rules in their precedence order — any normalized
text containing `just` or `today` maps to 0 hours even when a number is
also present; otherwise an integer followed by an hour unit maps to that
many hours; otherwise an integer followed by a day unit maps to 24 times
it; text matching none of the patterns (`30+`, `month`, `week` included)
maps to the unbounded sentinel — together with the spec's concrete
examples, case-insensitivity and quote/whitespace tolerance included. -/
theorem c2_text_normalizer (s : String) :
    (s ≠ "" →
      (containsSub "just".toList (normTxt s) = true ∨ containsSub "today".toList (normTxt s) = true) →
      posted_text_to_hours (some s) = Hours.fin 0)
  ∧ (∀ n : ℕ, s ≠ "" →
      containsSub "just".toList (normTxt s) = false →
      containsSub "today".toList (normTxt s) = false →
      matchNumUnit 'h' (normTxt s) = some n →
      posted_text_to_hours (some s) = Hours.fin n)
  ∧ (∀ n : ℕ, s ≠ "" →
      containsSub "just".toList (normTxt s) = false →
      containsSub "today".toList (normTxt s) = false →
      matchNumUnit 'h' (normTxt s) = none →
      matchNumUnit 'd' (normTxt s) = some n →
      posted_text_to_hours (some s) = Hours.fin ((n * 24 : ℕ) : ℚ))
  ∧ (s ≠ "" →
      containsSub "just".toList (normTxt s) = false →
      containsSub "today".toList (normTxt s) = false →
      matchNumUnit 'h' (normTxt s) = none →
      matchNumUnit 'd' (normTxt s) = none →
      matchPosted "hour".toList (normTxt s) = none →
      matchPosted "day".toList (normTxt s) = none →
      posted_text_to_hours (some s) = Hours.inf)
  ∧ posted_text_to_hours (some "Just posted") = Hours.fin 0
  ∧ posted_text_to_hours (some "Today") = Hours.fin 0
  ∧ posted_text_to_hours (some "just now 3h") = Hours.fin 0
  ∧ posted_text_to_hours (some "10h ago") = Hours.fin 10
  ∧ posted_text_to_hours (some "1d ago") = Hours.fin 24
  ∧ posted_text_to_hours (some "Posted 12 hours ago") = Hours.fin 12
  ∧ posted_text_to_hours (some "30+ days ago") = Hours.inf
  ∧ posted_text_to_hours (some "3 weeks ago") = Hours.inf
  ∧ posted_text_to_hours (some "2 months ago") = Hours.inf
  ∧ posted_text_to_hours (some "") = Hours.inf
  ∧ posted_text_to_hours none = Hours.inf
  ∧ posted_text_to_hours (some "  \"JUST posted\"  ") = Hours.fin 0
  ∧ posted_text_to_hours (some "  \"10H AGO\"  ") = Hours.fin 10
  ∧ posted_text_to_hours (some "yesterday") = Hours.inf := by
  refine ⟨?_, ?_, ?_, ?_, ?_⟩
  · intro h1 h2
    rcases h2 with h | h
    · replace h : containsSub ['j', 'u', 's', 't'] (normTxt s) = true := h
      simp [posted_text_to_hours, h1, h]
    · replace h : containsSub ['t', 'o', 'd', 'a', 'y'] (normTxt s) = true := h
      simp [posted_text_to_hours, h1, h]
  · intro n h1 hj ht h3
    replace hj : containsSub ['j', 'u', 's', 't'] (normTxt s) = false := hj
    replace ht : containsSub ['t', 'o', 'd', 'a', 'y'] (normTxt s) = false := ht
    simp [posted_text_to_hours, h1, hj, ht, h3]
  · intro n h1 hj ht h3 h4
    replace hj : containsSub ['j', 'u', 's', 't'] (normTxt s) = false := hj
    replace ht : containsSub ['t', 'o', 'd', 'a', 'y'] (normTxt s) = false := ht
    simp [posted_text_to_hours, h1, hj, ht, h3, h4]
  · intro h1 hj ht h3 h4 h5 h6
    replace hj : containsSub ['j', 'u', 's', 't'] (normTxt s) = false := hj
    replace ht : containsSub ['t', 'o', 'd', 'a', 'y'] (normTxt s) = false := ht
    replace h5 : matchPosted ['h', 'o', 'u', 'r'] (normTxt s) = none := h5
    replace h6 : matchPosted ['d', 'a', 'y'] (normTxt s) = none := h6
    simp [posted_text_to_hours, h1, hj, ht, h3, h4, h5, h6]
  · refine ⟨?_, ?_, ?_, ?_, ?_, ?_, ?_, ?_, ?_, ?_, ?_, ?_, ?_, ?_⟩ <;> decide

/-- Witness for C2: the precedence rule applied at a concrete label. -/
theorem c2_text_normalizer_witness :
    posted_text_to_hours (some "Just posted") = Hours.fin 0 :=
  (c2_text_normalizer "Just posted").1 (by decide) (by decide)

/-! ## C7 -/

/-- C7: `max_page_from_dom` returns the maximum of the numbers extracted
from the matching pagination nodes (each node contributing the first number
found among its data-automation attribute, aria-label attribute and
stripped inner text, in that order, which is what `nodeNum` reads), and 1
when no node matched or no number was extracted. -/
theorem c7_max_page_from_dom (nodes : List PageNode) :
    (nodes.filterMap nodeNum = [] → max_page_from_dom nodes = 1)
  ∧ (∀ n ∈ nodes.filterMap nodeNum, n ≤ max_page_from_dom nodes)
  ∧ (nodes.filterMap nodeNum ≠ [] → max_page_from_dom nodes ∈ nodes.filterMap nodeNum) := by
  rcases h : (nodes.filterMap nodeNum).max? with _ | m
  · have he : nodes.filterMap nodeNum = [] := List.max?_eq_none_iff.mp h
    refine ⟨fun _ => ?_, ?_, ?_⟩
    · unfold max_page_from_dom
      rw [h]
    · intro n hn
      rw [he] at hn
      cases hn
    · intro hne
      exact absurd he hne
  · have hm := List.max?_eq_some_iff'.mp h
    have hv : max_page_from_dom nodes = m := by
      unfold max_page_from_dom
      rw [h]
    refine ⟨fun he => ?_, ?_, ?_⟩
    · rw [he] at h
      simp at h
    · intro n hn
      rw [hv]
      exact hm.2 n hn
    · intro _
      rw [hv]
      exact hm.1

/-- Witness for C7 on three concrete nodes (numbers 3, 12, 7): the result
is one of the observed numbers, and every observed number bounds below. -/
theorem c7_max_page_from_dom_witness :
    max_page_from_dom demoNodes ∈ demoNodes.filterMap nodeNum ∧
      ∀ n ∈ demoNodes.filterMap nodeNum, n ≤ max_page_from_dom demoNodes :=
  ⟨(c7_max_page_from_dom demoNodes).2.2 (by decide),
   (c7_max_page_from_dom demoNodes).2.1⟩

/-! ## C9

The claim says the per-card delay is active in normal mode and disabled in
the fast-execution mode (`slow_mo` forced to zero).  Line 309 reads
`time.sleep(0.05 if slow_mo == 0 else 0.0)`: the 0.05 s delay fires exactly
when `slow_mo == 0` — which is precisely the forced fast mode — and the
extra delay is zero when `slow_mo > 0`.  The claim as stated is therefore
false; the counterexample below shows a headless (fast-mode) run with a
non-zero per-card delay. -/

/-- C9 counterexample: with `HEADLESS=true` (fast mode) `resolve_headless`
forces `slow_mo = 0`, and the per-card delay is then 0.05 s — not zero as
the claim states. -/
theorem c9_counterexample :
    (resolve_headless (some true) none false false 0).1 = true
  ∧ (resolve_headless (some true) none false false 0).2 = 0
  ∧ card_delay (resolve_headless (some true) none false false 0).2 ≠ 0 := by
  refine ⟨rfl, rfl, ?_⟩
  norm_num [resolve_headless, card_delay]

/-- C9 amended: headless or CI runs force `slow_mo = 0`; the per-card
politeness delay is 0.05 s exactly when `slow_mo = 0` (which includes every
such fast-mode run) and zero when `slow_mo ≠ 0`. -/
theorem c9_card_delay (he hp : Option Bool) (ci disp : Bool) (sm : ℚ) :
    (((resolve_headless he hp ci disp sm).1 || ci) = true →
      (resolve_headless he hp ci disp sm).2 = 0)
  ∧ ((resolve_headless he hp ci disp sm).2 = 0 →
      card_delay (resolve_headless he hp ci disp sm).2 = 1 / 20)
  ∧ ((resolve_headless he hp ci disp sm).2 ≠ 0 →
      card_delay (resolve_headless he hp ci disp sm).2 = 0) := by
  refine ⟨?_, ?_, ?_⟩
  · intro h
    simp only [resolve_headless] at h ⊢
    rw [if_pos h]
  · intro h
    rw [h]
    simp [card_delay]
  · intro h
    simp [card_delay, h]

/-- Witness for C9's amended statement: a headed run with `SLOW_MO = 3`
has zero extra delay, a headless run delays 0.05 s per card. -/
theorem c9_card_delay_witness :
    card_delay (resolve_headless (some false) none false true 3).2 = 0
  ∧ card_delay (resolve_headless (some true) none false false 3).2 = 1 / 20 :=
  ⟨(c9_card_delay (some false) none false true 3).2.2 (by norm_num [resolve_headless]),
   (c9_card_delay (some true) none false false 3).2.1 rfl⟩

/-! ## C6

The spec and the claim say a detail-page readiness failure (after retries
and the `main, article` fallback) aborts only that card.  Line 390 executes
`return` — not `continue` — inside the loop over the page's cards, so the
failure also drops every later card of the current list page; the log
message printed there (`"⏭️ Skipping (ready failed): <url>"`) describes the
per-card skip that was evidently intended.  The run itself survives: the
page loop of lines 436–449 continues with the next page. -/

/-- C6: evaluating the embedded loop at the failing input.  `cardGood`
alone records; behind `cardDetailFail` (whose detail page never becomes
ready) on the same page it is dropped — the claim would require one record
from that page.  A later page is still processed, so the failure does not
abort the run. -/
theorem c6_detail_failure_aborts_page :
    (processCard 0 initState cardGood).2 = CardOutcome.recorded
  ∧ (scrapePage 0 initState [cardDetailFail, cardGood]).all_results = []
  ∧ (scrapePage 0 initState [cardDetailFail, cardGood]).detail_visits
      = ["https://www.seek.com.au/job/1"]
  ∧ (scrape_run 0 [[cardDetailFail, cardGood], [cardGood2]]).all_results.length = 1 := by
  refine ⟨?_, ?_, ?_, ?_⟩ <;> decide

/-! ## Case analysis of the card-loop body, shared by C1 and C5 -/

theorem processCard_cases (now : ℤ) (st : HarvestState) (c : Card) :
    (processCard now st c).1 = st
  ∨ ∃ q href, posted_text_to_hours (some c.posted_text) = Hours.fin q ∧ ¬ 24 < q
      ∧ firstJobLink c.links = some href
      ∧ urljoin_seek href ∉ st.seen_links
      ∧ ((processCard now st c).1.all_results = st.all_results
            ∧ (processCard now st c).2 = CardOutcome.readyFailed
          ∨ (processCard now st c).1.all_results
              = st.all_results ++ [mkRecord now c q (urljoin_seek href)]
            ∧ (processCard now st c).2 = CardOutcome.recorded)
      ∧ (processCard now st c).1.seen_links = st.seen_links ++ [urljoin_seek href]
      ∧ (processCard now st c).1.detail_visits = st.detail_visits ++ [urljoin_seek href] := by
  unfold processCard
  rcases hm : posted_text_to_hours (some c.posted_text) with q | _
  · by_cases h24 : 24 < q
    · simp [h24]
    · rcases hl : firstJobLink c.links with _ | href
      · simp [h24, hl]
      · by_cases hseen : urljoin_seek href ∈ st.seen_links
        · simp [h24, hl, hseen]
        · by_cases hrdy : (c.detail_ready || c.detail_fallback_ready) = true
          · right
            refine ⟨q, href, rfl, h24, rfl, hseen, ?_, ?_, ?_⟩ <;> simp [h24, hl, hseen, hrdy]
          · right
            refine ⟨q, href, rfl, h24, rfl, hseen, ?_, ?_, ?_⟩ <;> simp [h24, hl, hseen, hrdy]
  · simp

theorem processCard_hours_le (now : ℤ) (st : HarvestState) (c : Card)
    (h : ∀ r ∈ st.all_results, r.hours_old ≤ 24) :
    ∀ r ∈ (processCard now st c).1.all_results, r.hours_old ≤ 24 := by
  rcases processCard_cases now st c with heq | ⟨q, href, _, h24, _, _, hres, _, _⟩
  · rw [heq]
    exact h
  · rcases hres with ⟨hres, _⟩ | ⟨hres, _⟩
    · rw [hres]
      exact h
    · rw [hres]
      intro r hr
      rcases List.mem_append.mp hr with h1 | h2
      · exact h r h1
      · have hr2 : r = mkRecord now c q (urljoin_seek href) := List.mem_singleton.mp h2
        rw [hr2]
        exact le_of_not_lt h24

theorem scrapePage_hours_le (now : ℤ) (st : HarvestState) (cards : List Card)
    (h : ∀ r ∈ st.all_results, r.hours_old ≤ 24) :
    ∀ r ∈ (scrapePage now st cards).all_results, r.hours_old ≤ 24 := by
  induction cards generalizing st with
  | nil => exact h
  | cons c rest ih =>
    by_cases hrf : (processCard now st c).2 = CardOutcome.readyFailed
    · simp only [scrapePage, hrf, if_pos]
      exact processCard_hours_le now st c h
    · simp only [scrapePage, hrf, if_neg, if_false]
      exact ih _ (processCard_hours_le now st c h)

theorem processCard_inv (now : ℤ) (st : HarvestState) (c : Card)
    (h : UrlsInv st) : UrlsInv (processCard now st c).1 := by
  rcases processCard_cases now st c with heq | ⟨q, href, _, _, _, hseen, hres, hsl, _⟩
  · rw [heq]
    exact h
  · obtain ⟨hnd, hin⟩ := h
    rcases hres with ⟨hres, _⟩ | ⟨hres, _⟩
    · refine ⟨by rw [hres]; exact hnd, ?_⟩
      intro r hr
      rw [hres] at hr
      rw [hsl]
      exact List.mem_append_left _ (hin r hr)
    · constructor
      · rw [hres, List.map_append, List.nodup_append]
        refine ⟨hnd, List.nodup_singleton _, ?_⟩
        intro x hx hx2
        simp [mkRecord] at hx2
        rw [hx2] at hx
        rcases List.mem_map.mp hx with ⟨r, hr, hru⟩
        exact hseen (hru ▸ hin r hr)
      · intro r hr
        rw [hres] at hr
        rw [hsl]
        rcases List.mem_append.mp hr with h1 | h2
        · exact List.mem_append_left _ (hin r h1)
        · have hr2 : r = mkRecord now c q (urljoin_seek href) := List.mem_singleton.mp h2
          rw [hr2]
          refine List.mem_append_right _ ?_
          simp [mkRecord]

theorem scrapePage_inv (now : ℤ) (st : HarvestState) (cards : List Card)
    (h : UrlsInv st) : UrlsInv (scrapePage now st cards) := by
  induction cards generalizing st with
  | nil => exact h
  | cons c rest ih =>
    by_cases hrf : (processCard now st c).2 = CardOutcome.readyFailed
    · simp only [scrapePage, hrf, if_pos]
      exact processCard_inv now st c h
    · simp only [scrapePage, hrf, if_neg, if_false]
      exact ih _ (processCard_inv now st c h)

theorem scrape_run_inv (now : ℤ) (pages : List (List Card)) :
    UrlsInv (scrape_run now pages) := by
  unfold scrape_run
  suffices hgen : ∀ st : HarvestState, UrlsInv st →
      UrlsInv (pages.foldl (fun st cards => scrapePage now st cards) st) by
    exact hgen initState ⟨List.nodup_nil, by simp [initState]⟩
  induction pages with
  | nil =>
    intro st h
    exact h
  | cons p ps ih =>
    intro st h
    exact ih _ (scrapePage_inv now st p h)

/-! ## C1 -/

/-- C1: with the threshold H = 24, the loop body recency-skips a card
exactly when its hours-old value exceeds 24 (`Hours.gt24`, with the
unbounded sentinel counting as exceeding); a recency-skipped card changes
nothing — no record, no seen-set update, no detail-page visit (the skip
happens before the link is even resolved); every record of a whole run has
`hours_old ≤ 24`; and the boundary is inclusive: `cardBoundary`, whose
label `"1d ago"` means exactly 24 hours, does not exceed the threshold and
is recorded. -/
theorem c1_recency_filter (now : ℤ) (st : HarvestState) (c : Card)
    (pages : List (List Card)) :
    ((processCard now st c).2 = CardOutcome.recencySkipped ↔
      (posted_text_to_hours (some c.posted_text)).gt24 = true)
  ∧ ((posted_text_to_hours (some c.posted_text)).gt24 = true →
      processCard now st c = (st, CardOutcome.recencySkipped))
  ∧ (∀ r ∈ (scrape_run now pages).all_results, r.hours_old ≤ 24)
  ∧ (posted_text_to_hours (some cardBoundary.posted_text)).gt24 = false
  ∧ (processCard 0 initState cardBoundary).2 = CardOutcome.recorded := by
  refine ⟨?_, ?_, ?_, by decide, by decide⟩
  · unfold processCard Hours.gt24
    rcases hm : posted_text_to_hours (some c.posted_text) with q | _
    · by_cases h24 : 24 < q
      · simp [h24]
      · rcases hl : firstJobLink c.links with _ | href
        · simp [h24, hl]
        · by_cases hseen : urljoin_seek href ∈ st.seen_links
          · simp [h24, hl, hseen]
          · by_cases hrdy : (c.detail_ready || c.detail_fallback_ready) = true
            · simp [h24, hl, hseen, hrdy]
            · simp [h24, hl, hseen, hrdy]
    · simp
  · intro hgt
    unfold processCard
    rcases hm : posted_text_to_hours (some c.posted_text) with q | _
    · rw [hm] at hgt
      unfold Hours.gt24 at hgt
      simp only [decide_eq_true_eq] at hgt
      simp [hgt]
    · simp
  · suffices h : ∀ st : HarvestState, (∀ r ∈ st.all_results, r.hours_old ≤ 24) →
        ∀ r ∈ (pages.foldl (fun st cards => scrapePage now st cards) st).all_results,
          r.hours_old ≤ 24 by
      exact h initState (by simp [initState])
    induction pages with
    | nil =>
      intro st h
      exact h
    | cons p ps ih =>
      intro st h
      exact ih _ (scrapePage_hours_le now st p h)

/-- Witness for C1: an over-threshold card (`"2d ago"`, 48 h) is skipped
with the state untouched, via the theorem's skip direction. -/
theorem c1_recency_filter_witness :
    processCard 0 initState cardOld = (initState, CardOutcome.recencySkipped) :=
  (c1_recency_filter 0 initState cardOld []).2.1 (by decide)

/-! ## C5 -/

/-- C5: the deduplication invariant — recorded detail URLs pairwise
distinct and each tracked in `seen_links` — is preserved by every card
step; a card whose absolutized detail URL was already seen is disposed of
as a duplicate with the state unchanged (no record, no detail visit); and
in a whole run no two records share a detail URL, each being tracked in the
final seen set. -/
theorem c5_dedup (now : ℤ) (st : HarvestState) (c : Card)
    (pages : List (List Card)) :
    (UrlsInv st → UrlsInv (processCard now st c).1)
  ∧ (∀ q href, posted_text_to_hours (some c.posted_text) = Hours.fin q → ¬ 24 < q →
      firstJobLink c.links = some href → urljoin_seek href ∈ st.seen_links →
      processCard now st c = (st, CardOutcome.duplicate))
  ∧ ((scrape_run now pages).all_results.map (fun r => r.detail_url)).Nodup
  ∧ (∀ r ∈ (scrape_run now pages).all_results,
      r.detail_url ∈ (scrape_run now pages).seen_links) := by
  refine ⟨processCard_inv now st c, ?_, (scrape_run_inv now pages).1,
    (scrape_run_inv now pages).2⟩
  intro q href hm h24 hl hseen
  unfold processCard
  rw [hm]
  simp [h24, hl, hseen]

/-- Witness for C5: a re-encountered URL (`cardDup` against `stSeen`) is
skipped as a duplicate with the state unchanged. -/
theorem c5_dedup_witness :
    processCard 0 stSeen cardDup = (stSeen, CardOutcome.duplicate) :=
  (c5_dedup 0 stSeen cardDup []).2.1 2 "/job/1" (by decide) (by norm_num)
    (by decide) (by decide)

/-! ## The slug characterization, shared machinery for C8 -/

theorem head?_dropWhile_not (p : Char → Bool) (l : List Char) :
    ∀ c, (l.dropWhile p).head? = some c → p c = false := by
  induction l with
  | nil =>
    intro c h
    cases h
  | cons a rest ih =>
    intro c h
    rw [List.dropWhile_cons] at h
    by_cases hp : p a
    · rw [if_pos hp] at h
      exact ih c h
    · rw [if_neg hp] at h
      cases h
      exact Bool.not_eq_true _ ▸ Bool.of_not_eq_true hp

theorem getLast?_of_suffix {a l : List Char} (h : a <:+ l) (ha : a ≠ []) :
    l.getLast? = a.getLast? := by
  rcases h with ⟨t, rfl⟩
  rw [List.getLast?_append]
  cases haa : a.getLast? with
  | none => exact absurd (List.getLast?_eq_none_iff.mp haa) ha
  | some x => rfl

theorem strip_noLead (l : List Char) : noLeadWs (pyStripWs l) := by
  intro c h
  unfold pyStripWs at h
  rw [List.head?_reverse] at h
  set B := ((l.dropWhile pyIsSpace).reverse).dropWhile pyIsSpace with hB
  have hBne : B ≠ [] := by
    intro hb
    rw [hb] at h
    cases h
  have hsuff : B <:+ (l.dropWhile pyIsSpace).reverse := List.dropWhile_suffix _
  rw [← getLast?_of_suffix hsuff hBne, List.getLast?_reverse] at h
  exact head?_dropWhile_not pyIsSpace l c h

theorem strip_noTrail (l : List Char) : noTrailWs (pyStripWs l) := by
  intro c h
  unfold pyStripWs at h
  rw [List.getLast?_reverse] at h
  exact head?_dropWhile_not pyIsSpace _ c h

theorem subWs_append_nonws (w r : List Char) (hw : ∀ c ∈ w, pyIsSpace c = false) :
    pySubWsDash (w ++ r) = w ++ pySubWsDash r := by
  induction w with
  | nil => rfl
  | cons a ws ih =>
    have ha : pyIsSpace a = false := hw a (List.mem_cons_self a ws)
    rw [List.cons_append]
    rw [show pySubWsDash (a :: (ws ++ r)) = a :: pySubWsDash (ws ++ r) by
      simp [pySubWsDash, ha]]
    rw [ih (fun c hc => hw c (List.mem_cons_of_mem a hc))]
    rfl

theorem wordsOf_dropWhile_ws (l : List Char) :
    wordsOf (l.dropWhile pyIsSpace) = wordsOf l := by
  induction l with
  | nil => rfl
  | cons a rest ih =>
    rw [List.dropWhile_cons]
    by_cases ha : pyIsSpace a
    · rw [if_pos ha, ih]
      simp [wordsOf, ha]
    · rw [if_neg ha]

theorem dashJoin_cons (w : List Char) (ws : List (List Char)) (h : ws ≠ []) :
    dashJoin (w :: ws) = w ++ '-' :: dashJoin ws := by
  cases ws with
  | nil => exact absurd rfl h
  | cons x xs => rfl

theorem wordsOf_ne_nil (m : List Char) (hm : m ≠ []) (hnl : noLeadWs m) :
    wordsOf m ≠ [] := by
  cases m with
  | nil => exact absurd rfl hm
  | cons a as =>
    have ha : pyIsSpace a = false := hnl a rfl
    simp [wordsOf, ha]

theorem subWsDash_eq_dashJoin :
    ∀ (n : ℕ) (l : List Char), l.length ≤ n → noLeadWs l → noTrailWs l →
      pySubWsDash l = dashJoin (wordsOf l) := by
  intro n
  induction n with
  | zero =>
    intro l hl _ _
    rw [List.length_eq_zero.mp (Nat.le_zero.mp hl)]
    simp [pySubWsDash, wordsOf, dashJoin]
  | succ n ih =>
    intro l hl hnl hnt
    match l with
    | [] => simp [pySubWsDash, wordsOf, dashJoin]
    | c :: rest =>
      have hc : pyIsSpace c = false := hnl c rfl
      have hsub1 : pySubWsDash (c :: rest) = c :: pySubWsDash rest := by
        simp [pySubWsDash, hc]
      have hw1 : wordsOf (c :: rest)
          = (c :: rest.takeWhile (fun x => !pyIsSpace x))
            :: wordsOf (rest.dropWhile (fun x => !pyIsSpace x)) := by
        simp [wordsOf, hc]
      set w := rest.takeWhile (fun x => !pyIsSpace x) with hwdef
      set r := rest.dropWhile (fun x => !pyIsSpace x) with hrdef
      have hrest : w ++ r = rest := List.takeWhile_append_dropWhile _ rest
      have hwnw : ∀ x ∈ w, pyIsSpace x = false := by
        intro x hx
        rw [hwdef] at hx
        have hx2 := List.mem_takeWhile_imp hx
        simpa using hx2
      have hrsuffl : r <:+ c :: rest :=
        (hrdef ▸ List.dropWhile_suffix _).trans (List.suffix_cons c rest)
      cases hr : r with
      | nil =>
        have hrw : rest = w := by
          rw [← hrest, hr, List.append_nil]
        rw [hsub1, hw1, hr, hrw]
        have hsubw : pySubWsDash w = w := by
          have h0 := subWs_append_nonws w [] hwnw
          rw [List.append_nil] at h0
          rw [h0]
          simp [pySubWsDash]
        rw [hsubw]
        simp [wordsOf, dashJoin]
      | cons s r1 =>
        have hs : pyIsSpace s = true := by
          have h0 : (!pyIsSpace s) = false := by
            apply head?_dropWhile_not (fun x => !pyIsSpace x) rest s
            rw [← hrdef, hr]
            rfl
          simpa using h0
        set r2 := r1.dropWhile pyIsSpace with hr2def
        have hsubr : pySubWsDash r = '-' :: pySubWsDash r2 := by
          rw [hr, hr2def]
          simp [pySubWsDash, hs]
        have hr2suffl : r2 <:+ c :: rest := by
          refine ((hr2def ▸ List.dropWhile_suffix pyIsSpace).trans ?_).trans hrsuffl
          rw [hr]
          exact List.suffix_cons s r1
        have hr2ne : r2 ≠ [] := by
          intro h0
          rw [hr2def] at h0
          have hallws1 : ∀ x ∈ r1, pyIsSpace x = true := List.dropWhile_eq_nil_iff.mp h0
          have hrne : r ≠ [] := by
            rw [hr]
            exact List.cons_ne_nil s r1
          have hallws : ∀ x ∈ r, pyIsSpace x = true := by
            intro x hx
            rw [hr] at hx
            rcases List.mem_cons.mp hx with rfl | hx1
            · exact hs
            · exact hallws1 x hx1
          have hlast : (c :: rest).getLast? = some (r.getLast hrne) := by
            rw [getLast?_of_suffix hrsuffl hrne]
            exact List.getLast?_eq_getLast r hrne
          have hfalse := hnt _ hlast
          rw [hallws _ (List.getLast_mem hrne)] at hfalse
          cases hfalse
        have hnl2 : noLeadWs r2 := by
          intro c' hc'
          exact head?_dropWhile_not pyIsSpace r1 c' (hr2def ▸ hc')
        have hnt2 : noTrailWs r2 := by
          intro c' hc'
          apply hnt c'
          rw [getLast?_of_suffix hr2suffl hr2ne]
          exact hc'
        have hlen2 : r2.length ≤ n := by
          have h1 : r2.length ≤ r1.length := by
            rw [hr2def]
            exact List.Sublist.length_le (List.dropWhile_sublist _)
          have h2 : r.length ≤ rest.length := by
            rw [hrdef]
            exact List.Sublist.length_le (List.dropWhile_sublist _)
          have h3 : r1.length + 1 = r.length := by
            rw [hr]
            rfl
          have h4 : (c :: rest).length ≤ n + 1 := hl
          simp only [List.length_cons] at h4
          omega
        have hIH := ih r2 hlen2 hnl2 hnt2
        have hwr : wordsOf r = wordsOf r2 := by
          rw [hr, hr2def, wordsOf_dropWhile_ws r1]
          simp [wordsOf, hs]
        have hw2ne : wordsOf r2 ≠ [] := wordsOf_ne_nil r2 hr2ne hnl2
        rw [hsub1, hw1, ← hrest, subWs_append_nonws w r hwnw, hsubr, hIH, hwr,
          dashJoin_cons _ _ hw2ne]
        simp

/-! ## C8 -/

/-- C8: `build_seek_url` is a pure function of its inputs (so repeated
calls are byte-identical by construction), and its output is exactly the
canonical template in which the keyword appears slugified as the spec
describes it (`slugSpec`): trimmed, every internal whitespace run collapsed
to a single hyphen, all letters lower-cased. -/
theorem c8_query_builder (k : String) (s d : ℕ) :
    build_seek_url k s d
      = "https://www.seek.com.au" ++ "/" ++ (⟨slugSpec k⟩ : String)
        ++ "-jobs/in-All-Australia" ++ "?salaryrange=" ++ toString s
        ++ "-999999&daterange=" ++ toString d ++ "&sortmode=ListedDate" := by
  have hslug : slugList k = slugSpec k := by
    unfold slugList slugSpec
    rw [subWsDash_eq_dashJoin (pyStripWs k.toList).length (pyStripWs k.toList) le_rfl
      (strip_noLead k.toList) (strip_noTrail k.toList)]
  unfold build_seek_url
  rw [hslug]

/-! ## Quoting round-trip, shared machinery for C3 -/

theorem charToNat_ofNat (n : ℕ) (h : n < 256) : (Char.ofNat n).toNat = n := by
  unfold Char.ofNat
  rw [dif_pos (Or.inl (by omega))]
  rfl

theorem alwaysSafe_ne (c : Char) (h : alwaysSafeChar c = true) :
    c ≠ '+' ∧ c ≠ '%' ∧ c ≠ '&' ∧ c ≠ '=' := by
  refine ⟨?_, ?_, ?_, ?_⟩ <;> intro he <;> rw [he] at h <;> exact absurd h (by decide)

theorem hexVal_hexUpper (m : ℕ) (hm : m < 16) : hexVal? (hexUpper m) = some m := by
  interval_cases m <;> decide

theorem hexUpper_ne (m : ℕ) (hm : m < 16) : hexUpper m ≠ '&' ∧ hexUpper m ≠ '=' := by
  interval_cases m <;> exact ⟨by decide, by decide⟩

theorem hexVal_lt (c : Char) (x : ℕ) (h : hexVal? c = some x) : x < 16 := by
  unfold hexVal? at h
  split_ifs at h with h1 h2 h3
  · simp only [Bool.and_eq_true, decide_eq_true_eq] at h1
    injection h with h
    omega
  · simp only [Bool.and_eq_true, decide_eq_true_eq] at h2
    injection h with h
    omega
  · simp only [Bool.and_eq_true, decide_eq_true_eq] at h3
    injection h with h
    omega

theorem unquote_quote (l : List Char) (hl : ∀ c ∈ l, c.toNat < 256) :
    unquotePlus (quotePlus l) = l := by
  induction l with
  | nil => rfl
  | cons c rest ih =>
    have hc : c.toNat < 256 := hl c (List.mem_cons_self c rest)
    have hr := ih (fun x hx => hl x (List.mem_cons_of_mem c hx))
    simp only [quotePlus]
    by_cases hsafe : alwaysSafeChar c = true
    · obtain ⟨h1, h2, _, _⟩ := alwaysSafe_ne c hsafe
      rw [if_pos hsafe]
      simp only [List.cons_append, List.nil_append]
      rw [show unquotePlus (c :: quotePlus rest) = c :: unquotePlus (quotePlus rest) by
        simp [unquotePlus, h1, h2]]
      rw [hr]
    · by_cases hsp : c = ' '
      · rw [if_neg hsafe, if_pos hsp]
        simp only [List.cons_append, List.nil_append]
        rw [show unquotePlus ('+' :: quotePlus rest) = ' ' :: unquotePlus (quotePlus rest) by
          simp [unquotePlus]]
        rw [hr, hsp]
      · rw [if_neg hsafe, if_neg hsp]
        simp only [List.cons_append, List.nil_append]
        have hdiv : c.toNat / 16 < 16 := by omega
        have hmod : c.toNat % 16 < 16 := by omega
        rw [show unquotePlus ('%' :: hexUpper (c.toNat / 16) :: hexUpper (c.toNat % 16)
              :: quotePlus rest)
            = Char.ofNat (16 * (c.toNat / 16) + c.toNat % 16) :: unquotePlus (quotePlus rest) by
          simp [unquotePlus, hexVal_hexUpper _ hdiv, hexVal_hexUpper _ hmod]]
        rw [hr]
        congr 1
        have he : 16 * (c.toNat / 16) + c.toNat % 16 = c.toNat := by omega
        rw [he]
        exact Char.ofNat_toNat c

theorem quotePlus_cons_ne_nil (c : Char) (rest : List Char) : quotePlus (c :: rest) ≠ [] := by
  simp only [quotePlus]
  split_ifs <;> simp

theorem quotePlus_no_amp_eq (l : List Char) (hl : ∀ c ∈ l, c.toNat < 256) :
    ∀ c' ∈ quotePlus l, c' ≠ '&' ∧ c' ≠ '=' := by
  induction l with
  | nil =>
    intro c' hc'
    cases hc'
  | cons c rest ih =>
    intro c' hc'
    have hc : c.toNat < 256 := hl c (List.mem_cons_self c rest)
    simp only [quotePlus] at hc'
    rcases List.mem_append.mp hc' with h1 | h2
    · split_ifs at h1 with hs hsp
      · have hne := alwaysSafe_ne c hs
        have : c' = c := List.mem_singleton.mp h1
        rw [this]
        exact ⟨hne.2.2.1, hne.2.2.2⟩
      · have : c' = '+' := List.mem_singleton.mp h1
        rw [this]
        exact ⟨by decide, by decide⟩
      · have hdiv : c.toNat / 16 < 16 := by omega
        have hmod : c.toNat % 16 < 16 := by omega
        simp only [List.mem_cons, List.not_mem_nil, or_false] at h1
        rcases h1 with rfl | rfl | rfl
        · exact ⟨by decide, by decide⟩
        · exact hexUpper_ne _ hdiv
        · exact hexUpper_ne _ hmod
    · exact ih (fun x hx => hl x (List.mem_cons_of_mem c hx)) c' h2

theorem splitAmp_no_amp (s : List Char) (hs : ∀ c ∈ s, c ≠ '&') : splitAmp s = [s] := by
  induction s with
  | nil => rfl
  | cons c rest ih =>
    have hc : c ≠ '&' := hs c (List.mem_cons_self c rest)
    have hr := ih (fun x hx => hs x (List.mem_cons_of_mem c hx))
    simp only [splitAmp, if_neg hc, hr]

theorem splitAmp_append_amp (a r : List Char) (ha : ∀ c ∈ a, c ≠ '&') :
    splitAmp (a ++ '&' :: r) = a :: splitAmp r := by
  induction a with
  | nil => simp [splitAmp]
  | cons c as ih =>
    have hc : c ≠ '&' := ha c (List.mem_cons_self c as)
    have hr := ih (fun x hx => ha x (List.mem_cons_of_mem c hx))
    simp only [List.cons_append, splitAmp, if_neg hc, List.append_eq, hr]

theorem splitEq_append (k w : List Char) (hk : ∀ c ∈ k, c ≠ '=') :
    splitEq? (k ++ '=' :: w) = some (k, w) := by
  induction k with
  | nil => simp [splitEq?]
  | cons c ks ih =>
    have hc : c ≠ '=' := hk c (List.mem_cons_self c ks)
    have hr := ih (fun x hx => hk x (List.mem_cons_of_mem c hx))
    simp only [List.cons_append, splitEq?, if_neg hc, List.append_eq, hr]

theorem parse_joinAmp (segs : List (List Char)) (h : ∀ s ∈ segs, ∀ c ∈ s, c ≠ '&') :
    (splitAmp (joinAmp segs)).filterMap parseSeg = segs.filterMap parseSeg := by
  induction segs with
  | nil => rfl
  | cons s ss ih =>
    cases ss with
    | nil =>
      rw [show joinAmp [s] = s from rfl, splitAmp_no_amp s (h s (List.mem_cons_self s []))]
    | cons t ts =>
      have hs : ∀ c ∈ s, c ≠ '&' := h s (List.mem_cons_self s (t :: ts))
      rw [show joinAmp (s :: t :: ts) = s ++ '&' :: joinAmp (t :: ts) from rfl,
        splitAmp_append_amp s _ hs, List.filterMap_cons, List.filterMap_cons,
        ih (fun x hx => h x (List.mem_cons_of_mem s hx))]

theorem unquotePlus_ne_nil (c : Char) (rest : List Char) : unquotePlus (c :: rest) ≠ [] := by
  by_cases h1 : c = '+'
  · subst h1
    simp [unquotePlus]
  · by_cases h2 : c = '%'
    · subst h2
      rcases rest with _ | ⟨a, _ | ⟨b, rest2⟩⟩
      · simp [unquotePlus]
      · simp [unquotePlus]
      · rcases hxa : hexVal? a with _ | x <;> rcases hxb : hexVal? b with _ | y <;>
          simp [unquotePlus, hxa, hxb]
    · simp [unquotePlus, h1, h2]

theorem unquotePlus_lt256 :
    ∀ (n : ℕ) (l : List Char), l.length ≤ n → (∀ c ∈ l, c.toNat < 256) →
      ∀ c' ∈ unquotePlus l, c'.toNat < 256 := by
  intro n
  induction n with
  | zero =>
    intro l hl _ c' hc'
    rw [List.length_eq_zero.mp (Nat.le_zero.mp hl)] at hc'
    cases hc'
  | succ n ih =>
    intro l hl hc c' hc'
    match l with
    | [] => cases hc'
    | c :: rest =>
      have hcl : c.toNat < 256 := hc c (List.mem_cons_self c rest)
      have hrest : ∀ x ∈ rest, x.toNat < 256 := fun x hx => hc x (List.mem_cons_of_mem c hx)
      have hlen : rest.length ≤ n := by
        simp only [List.length_cons] at hl
        omega
      by_cases h1 : c = '+'
      · subst h1
        rw [show unquotePlus ('+' :: rest) = ' ' :: unquotePlus rest by simp [unquotePlus]] at hc'
        rcases List.mem_cons.mp hc' with rfl | hm
        · decide
        · exact ih rest hlen hrest c' hm
      · by_cases h2 : c = '%'
        · subst h2
          rcases rest with _ | ⟨a, _ | ⟨b, rest2⟩⟩
          · rw [show unquotePlus ['%'] = ['%'] from rfl] at hc'
            rcases List.mem_singleton.mp hc' with rfl
            decide
          · rw [show unquotePlus ['%', a] = '%' :: unquotePlus [a] by simp [unquotePlus]] at hc'
            rcases List.mem_cons.mp hc' with rfl | hm
            · decide
            · exact ih [a] hlen hrest c' hm
          · rcases hxa : hexVal? a with _ | x <;> rcases hxb : hexVal? b with _ | y
            · rw [show unquotePlus ('%' :: a :: b :: rest2) = '%' :: unquotePlus (a :: b :: rest2)
                  by simp [unquotePlus, hxa, hxb]] at hc'
              rcases List.mem_cons.mp hc' with rfl | hm
              · decide
              · exact ih (a :: b :: rest2) hlen hrest c' hm
            · rw [show unquotePlus ('%' :: a :: b :: rest2) = '%' :: unquotePlus (a :: b :: rest2)
                  by simp [unquotePlus, hxa, hxb]] at hc'
              rcases List.mem_cons.mp hc' with rfl | hm
              · decide
              · exact ih (a :: b :: rest2) hlen hrest c' hm
            · rw [show unquotePlus ('%' :: a :: b :: rest2) = '%' :: unquotePlus (a :: b :: rest2)
                  by simp [unquotePlus, hxa, hxb]] at hc'
              rcases List.mem_cons.mp hc' with rfl | hm
              · decide
              · exact ih (a :: b :: rest2) hlen hrest c' hm
            · rw [show unquotePlus ('%' :: a :: b :: rest2)
                  = Char.ofNat (16 * x + y) :: unquotePlus rest2
                  by simp [unquotePlus, hxa, hxb]] at hc'
              rcases List.mem_cons.mp hc' with rfl | hm
              · have hx16 := hexVal_lt a x hxa
                have hy16 := hexVal_lt b y hxb
                rw [charToNat_ofNat (16 * x + y) (by omega)]
                omega
              · refine ih rest2 (by simp only [List.length_cons] at hl; omega)
                  (fun w hw => hrest w (List.mem_cons_of_mem a (List.mem_cons_of_mem b hw))) c' hm
        · rw [show unquotePlus (c :: rest) = c :: unquotePlus rest
              by simp [unquotePlus, h1, h2]] at hc'
          rcases List.mem_cons.mp hc' with rfl | hm
          · exact hcl
          · exact ih rest hlen hrest c' hm

theorem splitAmp_mem (qs : List Char) : ∀ s ∈ splitAmp qs, ∀ c ∈ s, c ∈ qs := by
  induction qs with
  | nil =>
    intro s hs c hc
    rcases List.mem_singleton.mp hs with rfl
    cases hc
  | cons c0 rest ih =>
    intro s hs c hc
    by_cases h0 : c0 = '&'
    · rw [show splitAmp (c0 :: rest) = [] :: splitAmp rest by simp [splitAmp, h0]] at hs
      rcases List.mem_cons.mp hs with rfl | hm
      · cases hc
      · exact List.mem_cons_of_mem c0 (ih s hm c hc)
    · rcases hsp : splitAmp rest with _ | ⟨s0, ss⟩
      · rw [show splitAmp (c0 :: rest) = [[c0]] by simp [splitAmp, h0, hsp]] at hs
        rcases List.mem_singleton.mp hs with rfl
        have hcc : c = c0 := List.mem_singleton.mp hc
        rw [hcc]
        exact List.mem_cons_self c0 rest
      · rw [show splitAmp (c0 :: rest) = (c0 :: s0) :: ss by simp [splitAmp, h0, hsp]] at hs
        rcases List.mem_cons.mp hs with rfl | hm
        · rcases List.mem_cons.mp hc with hcc | hm2
          · rw [hcc]
            exact List.mem_cons_self c0 rest
          · exact List.mem_cons_of_mem c0 (ih s0 (hsp ▸ List.mem_cons_self s0 ss) c hm2)
        · exact List.mem_cons_of_mem c0 (ih s (hsp ▸ List.mem_cons_of_mem s0 hm) c hc)

theorem splitEq_mem :
    ∀ (l a b : List Char), splitEq? l = some (a, b) →
      (∀ c ∈ a, c ∈ l) ∧ (∀ c ∈ b, c ∈ l) := by
  intro l
  induction l with
  | nil =>
    intro a b h
    cases h
  | cons c0 rest ih =>
    intro a b h
    by_cases h0 : c0 = '='
    · rw [show splitEq? (c0 :: rest) = some ([], rest) by simp [splitEq?, h0]] at h
      injection h with h
      injection h with ha hb
      subst ha
      subst hb
      exact ⟨fun c hc => absurd hc (List.not_mem_nil c), fun c hc => List.mem_cons_of_mem c0 hc⟩
    · rcases hsp : splitEq? rest with _ | kv
      · rw [show splitEq? (c0 :: rest) = none by simp [splitEq?, h0, hsp]] at h
        cases h
      · rw [show splitEq? (c0 :: rest) = some (c0 :: kv.1, kv.2) by simp [splitEq?, h0, hsp]] at h
        injection h with h
        injection h with ha hb
        subst ha
        subst hb
        obtain ⟨h1, h2⟩ := ih kv.1 kv.2 (by rw [hsp])
        refine ⟨?_, fun c hc => List.mem_cons_of_mem c0 (h2 c hc)⟩
        intro c hc
        rcases List.mem_cons.mp hc with hcc | hm
        · rw [hcc]
          exact List.mem_cons_self c0 rest
        · exact List.mem_cons_of_mem c0 (h1 c hm)

theorem parseSeg_encodePair (k v : List Char) (hk : ∀ c ∈ k, c.toNat < 256)
    (hv : ∀ c ∈ v, c.toNat < 256) :
    parseSeg (encodePair k v) = if v = [] then none else some (k, v) := by
  unfold parseSeg encodePair
  rw [splitEq_append _ _ (fun c hc => (quotePlus_no_amp_eq k hk c hc).2)]
  by_cases hve : v = []
  · subst hve
    simp [quotePlus]
  · have hqv : quotePlus v ≠ [] := by
      cases v with
      | nil => exact absurd rfl hve
      | cons a as => exact quotePlus_cons_ne_nil a as
    simp only [if_neg hve, if_neg hqv]
    rw [unquote_quote k hk, unquote_quote v hv]

theorem encodePair_no_amp (k v : List Char) (hk : ∀ c ∈ k, c.toNat < 256)
    (hv : ∀ c ∈ v, c.toNat < 256) :
    ∀ c ∈ encodePair k v, c ≠ '&' := by
  intro c hc
  unfold encodePair at hc
  rcases List.mem_append.mp hc with h1 | h2
  · exact (quotePlus_no_amp_eq k hk c h1).1
  · rcases List.mem_cons.mp h2 with hcc | hm
    · rw [hcc]
      decide
    · exact (quotePlus_no_amp_eq v hv c hm).1

theorem filterMap_encode_vals (k : List Char) (vs : List (List Char))
    (hk : ∀ c ∈ k, c.toNat < 256) (hvs : ∀ v ∈ vs, ∀ c ∈ v, c.toNat < 256) :
    vs.filterMap (fun v => parseSeg (encodePair k v))
      = (vs.filter (fun v => !v.isEmpty)).map (fun v => (k, v)) := by
  induction vs with
  | nil => rfl
  | cons v rest ih =>
    have hv := hvs v (List.mem_cons_self v rest)
    have hrest := fun w hw => hvs w (List.mem_cons_of_mem v hw)
    rw [List.filterMap_cons, parseSeg_encodePair k v hk hv, List.filter_cons]
    by_cases hve : v = []
    · subst hve
      simp only [if_pos rfl, List.isEmpty_nil, Bool.not_true, if_neg]
      exact ih hrest
    · have hne : (!v.isEmpty) = true := by
        cases v with
        | nil => exact absurd rfl hve
        | cons a as => rfl
      rw [if_neg hve, if_pos hne, List.map_cons, ih hrest]

theorem parse_urlencodeSeq (R : List (List Char × List (List Char)))
    (hR : ∀ e ∈ R, (∀ c ∈ e.1, c.toNat < 256) ∧ ∀ v ∈ e.2, ∀ c ∈ v, c.toNat < 256) :
    parse_qsl (urlencodeSeq R)
      = (R.map (fun e => (e.2.filter (fun v => !v.isEmpty)).map (fun v => (e.1, v)))).flatten := by
  unfold parse_qsl urlencodeSeq
  rw [parse_joinAmp]
  · rw [List.filterMap_flatten, List.map_map]
    congr 1
    apply List.map_congr_left
    intro e he
    obtain ⟨hk, hv⟩ := hR e he
    show (e.2.map (encodePair e.1)).filterMap parseSeg = _
    rw [List.filterMap_map]
    exact filterMap_encode_vals e.1 e.2 hk hv
  · intro sg hsg
    rcases List.mem_flatten.mp hsg with ⟨l, hl, hsl⟩
    rcases List.mem_map.mp hl with ⟨e, he, rfl⟩
    rcases List.mem_map.mp hsl with ⟨v, hvv, rfl⟩
    obtain ⟨hk, hv⟩ := hR e he
    exact encodePair_no_amp e.1 v hk (hv v hvv)

theorem groupedVals_nil (k : List Char) : groupedVals [] k = [] := rfl

theorem groupedVals_cons (e : List Char × List (List Char))
    (rest : List (List Char × List (List Char))) (k : List Char) :
    groupedVals (e :: rest) k
      = (if e.1 = k then e.2 else []) ++ groupedVals rest k := by
  unfold groupedVals
  rw [List.filter_cons]
  by_cases he : e.1 = k
  · rw [if_pos (by simp [he]), if_pos he, List.map_cons, List.flatten_cons]
  · rw [if_neg (by simp [he]), if_neg he, List.nil_append]

theorem groupedVals_eq_nil (Q : List (List Char × List (List Char))) (k : List Char)
    (h : ∀ e ∈ Q, e.1 ≠ k) : groupedVals Q k = [] := by
  induction Q with
  | nil => rfl
  | cons e rest ih =>
    rw [groupedVals_cons, if_neg (h e (List.mem_cons_self e rest)), List.nil_append]
    exact ih fun x hx => h x (List.mem_cons_of_mem e hx)

theorem addPair_keys (acc : List (List Char × List (List Char))) (k v : List Char) :
    (addPair acc k v).map (fun e => e.1)
      = if k ∈ acc.map (fun e => e.1) then acc.map (fun e => e.1)
        else acc.map (fun e => e.1) ++ [k] := by
  induction acc with
  | nil => simp [addPair]
  | cons e rest ih =>
    unfold addPair
    by_cases he : e.1 = k
    · rw [if_pos he]
      simp [he]
    · rw [if_neg he]
      simp only [List.map_cons, ih]
      by_cases hk : k ∈ rest.map (fun e => e.1)
      · rw [if_pos hk, if_pos (List.mem_cons_of_mem e.1 hk)]
      · rw [if_neg hk, if_neg (by
          intro hmem
          rcases List.mem_cons.mp hmem with hke | hkr
          · exact he hke.symm
          · exact hk hkr)]
        simp

theorem addPair_keys_nodup (acc : List (List Char × List (List Char))) (k v : List Char)
    (h : (acc.map (fun e => e.1)).Nodup) : ((addPair acc k v).map (fun e => e.1)).Nodup := by
  rw [addPair_keys]
  by_cases hk : k ∈ acc.map (fun e => e.1)
  · rw [if_pos hk]
    exact h
  · rw [if_neg hk]
    rw [List.nodup_append]
    refine ⟨h, List.nodup_singleton k, ?_⟩
    intro x hx hx2
    rcases List.mem_singleton.mp hx2 with rfl
    exact hk hx

theorem groupedVals_addPair (acc : List (List Char × List (List Char)))
    (k0 v k : List Char) (hnd : (acc.map (fun e => e.1)).Nodup) :
    groupedVals (addPair acc k0 v) k
      = groupedVals acc k ++ (if k0 = k then [v] else []) := by
  induction acc with
  | nil =>
    by_cases h : k0 = k <;>
      simp [addPair, groupedVals_cons, groupedVals_nil, h]
  | cons e rest ih =>
    have hnotin : e.1 ∉ rest.map (fun x => x.1) := (List.nodup_cons.mp hnd).1
    have hnd_rest : (rest.map (fun x => x.1)).Nodup := (List.nodup_cons.mp hnd).2
    unfold addPair
    by_cases he : e.1 = k0
    · rw [if_pos he, groupedVals_cons, groupedVals_cons]
      by_cases hek : e.1 = k
      · have hrest0 : groupedVals rest k = [] := by
          apply groupedVals_eq_nil
          intro x hx hxk
          apply hnotin
          rw [hek, ← hxk]
          exact List.mem_map_of_mem (fun y => y.1) hx
        rw [if_pos hek, if_pos hek, if_pos (he ▸ hek), hrest0]
        simp
      · rw [if_neg hek, if_neg hek, if_neg (by rw [← he]; exact hek)]
        simp
    · rw [if_neg he, groupedVals_cons, groupedVals_cons, ih hnd_rest]
      simp [List.append_assoc]

theorem foldl_addPair_keys_nodup (ps : List (List Char × List Char)) :
    ∀ (acc : List (List Char × List (List Char))),
      (acc.map (fun e => e.1)).Nodup →
      (((ps.foldl (fun a kv => addPair a kv.1 kv.2) acc)).map (fun e => e.1)).Nodup := by
  induction ps with
  | nil =>
    intro acc h
    exact h
  | cons p rest ih =>
    intro acc h
    exact ih _ (addPair_keys_nodup acc p.1 p.2 h)

theorem groupedVals_foldl (ps : List (List Char × List Char)) :
    ∀ (acc : List (List Char × List (List Char))) (k : List Char),
      (acc.map (fun e => e.1)).Nodup →
      groupedVals (ps.foldl (fun a kv => addPair a kv.1 kv.2) acc) k
        = groupedVals acc k
          ++ ((ps.filter (fun p => decide (p.1 = k))).map (fun p => p.2)) := by
  induction ps with
  | nil =>
    intro acc k _
    simp
  | cons p rest ih =>
    intro acc k hnd
    rw [List.foldl_cons, ih _ k (addPair_keys_nodup acc p.1 p.2 hnd),
      groupedVals_addPair acc p.1 p.2 k hnd, List.filter_cons]
    by_cases hp : p.1 = k
    · rw [if_pos hp, if_pos (by simp [hp]), List.map_cons]
      simp [List.append_assoc]
    · rw [if_neg hp, if_neg (by simp [hp])]
      simp

theorem parse_qs_keys_nodup (qs : List Char) :
    ((parse_qs qs).map (fun e => e.1)).Nodup := by
  unfold parse_qs
  exact foldl_addPair_keys_nodup (parse_qsl qs) [] List.nodup_nil

theorem groupedVals_parse_qs (qs : List Char) (k : List Char) :
    groupedVals (parse_qs qs) k
      = ((parse_qsl qs).filter (fun p => decide (p.1 = k))).map (fun p => p.2) := by
  unfold parse_qs
  rw [groupedVals_foldl (parse_qsl qs) [] k List.nodup_nil, groupedVals_nil, List.nil_append]

theorem dictSet_mem (Q : List (List Char × List (List Char))) (k : List Char)
    (vs : List (List Char)) : ∀ e ∈ dictSet Q k vs, e ∈ Q ∨ e = (k, vs) := by
  induction Q with
  | nil =>
    intro e he
    exact Or.inr (List.mem_singleton.mp he)
  | cons e0 rest ih =>
    intro e he
    unfold dictSet at he
    by_cases h0 : e0.1 = k
    · rw [if_pos h0] at he
      rcases List.mem_cons.mp he with rfl | hm
      · exact Or.inr rfl
      · exact Or.inl (List.mem_cons_of_mem e0 hm)
    · rw [if_neg h0] at he
      rcases List.mem_cons.mp he with hcc | hm
      · rw [hcc]
        exact Or.inl (List.mem_cons_self e0 rest)
      · rcases ih e hm with h1 | h2
        · exact Or.inl (List.mem_cons_of_mem e0 h1)
        · exact Or.inr h2

theorem groupedVals_dictSet_ne (Q : List (List Char × List (List Char)))
    (k0 : List Char) (vs : List (List Char)) (k : List Char) (h : k0 ≠ k) :
    groupedVals (dictSet Q k0 vs) k = groupedVals Q k := by
  induction Q with
  | nil =>
    rw [show dictSet [] k0 vs = [(k0, vs)] from rfl, groupedVals_cons, if_neg h]
    rfl
  | cons e rest ih =>
    unfold dictSet
    by_cases he : e.1 = k0
    · rw [if_pos he, groupedVals_cons, groupedVals_cons,
        if_neg (show ¬((k0, vs).1 = k) from h), if_neg (fun hek => h (he ▸ hek))]
    · rw [if_neg he, groupedVals_cons, groupedVals_cons, ih]

theorem groupedVals_dictSet_self (Q : List (List Char × List (List Char)))
    (k0 : List Char) (vs : List (List Char))
    (hnd : (Q.map (fun e => e.1)).Nodup) :
    groupedVals (dictSet Q k0 vs) k0 = vs := by
  induction Q with
  | nil =>
    rw [show dictSet [] k0 vs = [(k0, vs)] from rfl, groupedVals_cons, if_pos rfl,
      groupedVals_nil]
    simp
  | cons e rest ih =>
    have hnotin : e.1 ∉ rest.map (fun x => x.1) := (List.nodup_cons.mp hnd).1
    have hndr : (rest.map (fun x => x.1)).Nodup := (List.nodup_cons.mp hnd).2
    unfold dictSet
    by_cases he : e.1 = k0
    · rw [if_pos he, groupedVals_cons, if_pos rfl]
      have hrest0 : groupedVals rest k0 = [] := by
        apply groupedVals_eq_nil
        intro x hx hxk
        apply hnotin
        rw [he, ← hxk]
        exact List.mem_map_of_mem (fun y => y.1) hx
      rw [hrest0]
      simp
    · rw [if_neg he, groupedVals_cons, if_neg he, List.nil_append, ih hndr]

theorem addPair_entries (acc : List (List Char × List (List Char))) (k v : List Char)
    (hacc : ∀ e ∈ acc, (∀ c ∈ e.1, c.toNat < 256)
      ∧ ∀ w ∈ e.2, (∀ c ∈ w, c.toNat < 256) ∧ w ≠ [])
    (hk : ∀ c ∈ k, c.toNat < 256) (hv : (∀ c ∈ v, c.toNat < 256) ∧ v ≠ []) :
    ∀ e ∈ addPair acc k v, (∀ c ∈ e.1, c.toNat < 256)
      ∧ ∀ w ∈ e.2, (∀ c ∈ w, c.toNat < 256) ∧ w ≠ [] := by
  induction acc with
  | nil =>
    intro e he
    rcases List.mem_singleton.mp he with rfl
    refine ⟨hk, ?_⟩
    intro w hw
    rcases List.mem_singleton.mp hw with rfl
    exact hv
  | cons e0 rest ih =>
    intro e he
    unfold addPair at he
    by_cases h0 : e0.1 = k
    · rw [if_pos h0] at he
      rcases List.mem_cons.mp he with rfl | hm
      · obtain ⟨h1, h2⟩ := hacc e0 (List.mem_cons_self e0 rest)
        refine ⟨h1, ?_⟩
        intro w hw
        rcases List.mem_append.mp hw with hw1 | hw2
        · exact h2 w hw1
        · rcases List.mem_singleton.mp hw2 with rfl
          exact hv
      · exact hacc e (List.mem_cons_of_mem e0 hm)
    · rw [if_neg h0] at he
      rcases List.mem_cons.mp he with hcc | hm
      · rw [hcc]
        exact hacc e0 (List.mem_cons_self e0 rest)
      · exact ih (fun x hx => hacc x (List.mem_cons_of_mem e0 hx)) e hm

theorem foldl_entries (ps : List (List Char × List Char)) :
    ∀ (acc : List (List Char × List (List Char))),
      (∀ e ∈ acc, (∀ c ∈ e.1, c.toNat < 256)
        ∧ ∀ w ∈ e.2, (∀ c ∈ w, c.toNat < 256) ∧ w ≠ []) →
      (∀ p ∈ ps, (∀ c ∈ p.1, c.toNat < 256) ∧ (∀ c ∈ p.2, c.toNat < 256) ∧ p.2 ≠ []) →
      ∀ e ∈ ps.foldl (fun a kv => addPair a kv.1 kv.2) acc,
        (∀ c ∈ e.1, c.toNat < 256) ∧ ∀ w ∈ e.2, (∀ c ∈ w, c.toNat < 256) ∧ w ≠ [] := by
  induction ps with
  | nil =>
    intro acc hacc _
    exact hacc
  | cons p rest ih =>
    intro acc hacc hps
    obtain ⟨h1, h2, h3⟩ := hps p (List.mem_cons_self p rest)
    exact ih _ (addPair_entries acc p.1 p.2 hacc h1 ⟨h2, h3⟩)
      (fun x hx => hps x (List.mem_cons_of_mem p hx))

theorem parse_qsl_ok (qs : List Char) (hqs : ∀ c ∈ qs, c.toNat < 256) :
    ∀ p ∈ parse_qsl qs,
      (∀ c ∈ p.1, c.toNat < 256) ∧ (∀ c ∈ p.2, c.toNat < 256) ∧ p.2 ≠ [] := by
  intro p hp
  unfold parse_qsl at hp
  rcases List.mem_filterMap.mp hp with ⟨seg, hseg, hps⟩
  have hsegqs : ∀ c ∈ seg, c.toNat < 256 := fun c hc => hqs c (splitAmp_mem qs seg hseg c hc)
  unfold parseSeg at hps
  rcases hsp : splitEq? seg with _ | kv
  · rw [hsp] at hps
    cases hps
  · rw [hsp] at hps
    dsimp only at hps
    by_cases hkv : kv.2 = []
    · rw [if_pos hkv] at hps
      cases hps
    · rw [if_neg hkv] at hps
      injection hps with hps
      obtain ⟨hm1, hm2⟩ := splitEq_mem seg kv.1 kv.2 hsp
      rw [← hps]
      refine ⟨?_, ?_, ?_⟩
      · exact unquotePlus_lt256 kv.1.length kv.1 le_rfl (fun c hc => hsegqs c (hm1 c hc))
      · exact unquotePlus_lt256 kv.2.length kv.2 le_rfl (fun c hc => hsegqs c (hm2 c hc))
      · cases hkv2 : kv.2 with
        | nil => exact absurd hkv2 hkv
        | cons a as => exact unquotePlus_ne_nil a as

theorem parse_qs_entries (qs : List Char) (hqs : ∀ c ∈ qs, c.toNat < 256) :
    ∀ e ∈ parse_qs qs, (∀ c ∈ e.1, c.toNat < 256)
      ∧ ∀ w ∈ e.2, (∀ c ∈ w, c.toNat < 256) ∧ w ≠ [] := by
  unfold parse_qs
  exact foldl_entries (parse_qsl qs) [] (fun e he => absurd he (List.not_mem_nil e))
    (parse_qsl_ok qs hqs)

theorem groupedVals_mem (Q : List (List Char × List (List Char))) (k : List Char) :
    ∀ v ∈ groupedVals Q k, ∃ e ∈ Q, v ∈ e.2 := by
  induction Q with
  | nil =>
    intro v hv
    cases hv
  | cons e rest ih =>
    intro v hv
    rw [groupedVals_cons] at hv
    rcases List.mem_append.mp hv with h1 | h2
    · by_cases he : e.1 = k
      · rw [if_pos he] at h1
        exact ⟨e, List.mem_cons_self e rest, h1⟩
      · rw [if_neg he] at h1
        cases h1
    · rcases ih v h2 with ⟨e', he', hv'⟩
      exact ⟨e', List.mem_cons_of_mem e he', hv'⟩

theorem bindForm_filter (R : List (List Char × List (List Char))) (k' : List Char) :
    (((R.map (fun e => (e.2.filter (fun v => !v.isEmpty)).map
          (fun v => (e.1, v)))).flatten.filter
        (fun p => decide (p.1 = k'))).map (fun p => p.2))
      = (groupedVals R k').filter (fun v => !v.isEmpty) := by
  induction R with
  | nil => rfl
  | cons e rest ih =>
    rw [List.map_cons, List.flatten_cons, List.filter_append, List.map_append, ih,
      groupedVals_cons, List.filter_append]
    congr 1
    rw [List.filter_map]
    by_cases he : e.1 = k'
    · rw [if_pos he]
      have hconst : ((fun p : List Char × List Char => decide (p.1 = k'))
          ∘ (fun v => (e.1, v))) = fun _ => true := by
        funext v
        simp [he]
      rw [hconst, List.filter_true, List.map_map]
      have hid : ((fun p : List Char × List Char => p.2)
          ∘ (fun v => ((e.1 : List Char), v))) = id := by
        funext v
        rfl
      rw [hid, List.map_id]
    · rw [if_neg he]
      have hconst : ((fun p : List Char × List Char => decide (p.1 = k'))
          ∘ (fun v => (e.1, v))) = fun _ => false := by
        funext v
        simp [he]
      rw [hconst, List.filter_false]
      rfl

/-! ## C3 -/

/-- C3: on any URL of the Query Builder family (whose components hold only
code points below 256, the fragment on which the character-level model of
CPython's quoting is exact — every URL this program builds is ASCII),
`set_query_param` leaves the scheme, host, path, path-params and fragment
components untouched byte for byte, leaves every other query parameter —
including ones the builder itself never set — with exactly the values
`parse_qs` reported before the override, and sets the targeted parameter to
the single given (non-empty) value. -/
theorem c3_set_query_param (u : URLParts) (key value : String)
    (_hfam : SeekFamily u) (hq : bytesOk u.query = true)
    (hk : bytesOk key = true) (hv : bytesOk value = true) :
    (set_query_param u key value).scheme = u.scheme
  ∧ (set_query_param u key value).netloc = u.netloc
  ∧ (set_query_param u key value).path = u.path
  ∧ (set_query_param u key value).params = u.params
  ∧ (set_query_param u key value).fragment = u.fragment
  ∧ (∀ k' : List Char, k' ≠ key.toList →
      qvals (set_query_param u key value) k' = qvals u k')
  ∧ (value ≠ "" →
      qvals (set_query_param u key value) key.toList = [value.toList]) := by
  have hqs : ∀ c ∈ u.query.toList, c.toNat < 256 := by
    intro c hc
    have h0 := List.all_eq_true.mp hq c hc
    simpa using h0
  have hks : ∀ c ∈ key.toList, c.toNat < 256 := by
    intro c hc
    have h0 := List.all_eq_true.mp hk c hc
    simpa using h0
  have hvs : ∀ c ∈ value.toList, c.toNat < 256 := by
    intro c hc
    have h0 := List.all_eq_true.mp hv c hc
    simpa using h0
  have hQ := parse_qs_entries u.query.toList hqs
  have hQnd := parse_qs_keys_nodup u.query.toList
  have hR : ∀ e ∈ dictSet (parse_qs u.query.toList) key.toList [value.toList],
      (∀ c ∈ e.1, c.toNat < 256) ∧ ∀ w ∈ e.2, ∀ c ∈ w, c.toNat < 256 := by
    intro e he
    rcases dictSet_mem (parse_qs u.query.toList) key.toList [value.toList] e he with hin | hee
    · obtain ⟨h1, h2⟩ := hQ e hin
      exact ⟨h1, fun w hw => (h2 w hw).1⟩
    · rw [hee]
      refine ⟨hks, ?_⟩
      intro w hw
      rcases List.mem_singleton.mp hw with rfl
      exact hvs
  have hparse : parse_qsl ((set_query_param u key value).query.toList)
      = ((dictSet (parse_qs u.query.toList) key.toList [value.toList]).map
          (fun e => (e.2.filter (fun v => !v.isEmpty)).map (fun v => (e.1, v)))).flatten :=
    parse_urlencodeSeq (dictSet (parse_qs u.query.toList) key.toList [value.toList]) hR
  refine ⟨rfl, rfl, rfl, rfl, rfl, ?_, ?_⟩
  · intro k' hk'
    unfold qvals
    rw [hparse, bindForm_filter _ k',
      groupedVals_dictSet_ne _ key.toList [value.toList] k' (fun h0 => hk' h0.symm),
      groupedVals_parse_qs]
    apply List.filter_eq_self.mpr
    intro v hvmem
    rcases List.mem_map.mp hvmem with ⟨p, hp, rfl⟩
    have hpm := List.mem_filter.mp hp
    have hok := parse_qsl_ok u.query.toList hqs p hpm.1
    cases hp2 : p.2 with
    | nil => exact absurd hp2 hok.2.2
    | cons a as => rfl
  · intro hvne
    unfold qvals
    rw [hparse, bindForm_filter _ key.toList,
      groupedVals_dictSet_self _ key.toList [value.toList] hQnd]
    have hvl : value.toList ≠ [] := by
      intro h0
      exact hvne (String.ext h0)
    cases hvl2 : value.toList with
    | nil => exact absurd hvl2 hvl
    | cons a as => rfl

/-- Witness for C3: overriding `page` on a concrete builder URL keeps the
`daterange` parameter and sets `page` to the given value. -/
theorem c3_set_query_param_witness :
    qvals (set_query_param (buildSeekParts "data analyst" 150000 1) "page" "2")
        "daterange".toList
      = qvals (buildSeekParts "data analyst" 150000 1) "daterange".toList
  ∧ qvals (set_query_param (buildSeekParts "data analyst" 150000 1) "page" "2")
        "page".toList
      = ["2".toList] :=
  ⟨(c3_set_query_param (buildSeekParts "data analyst" 150000 1) "page" "2"
      (SeekFamily.base "data analyst" 150000 1) (by decide) (by decide)
      (by decide)).2.2.2.2.2.1 "daterange".toList (by decide),
   (c3_set_query_param (buildSeekParts "data analyst" 150000 1) "page" "2"
      (SeekFamily.base "data analyst" 150000 1) (by decide) (by decide)
      (by decide)).2.2.2.2.2.2 (by decide)⟩

end Seek
